import Mathlib

/-!
# The line editor of `tinyjs/Script.cpp`

A shallow embedding of `insert_char`, `remove_char`, `move_left`, `move_right`,
`print_str`, `print_line` and `read_command`, and theorems about them.

Modelling conventions.

* The history array `char buffer[history_size][size]` is one contiguous block of
  `history_size * size` bytes.  Memory is a function from addresses to bytes; the array
  occupies the addresses `0 .. history_size * size - 1` and slot `i` starts at address
  `i * size`.  An index that leaves a slot but stays inside the array lands in the
  neighbouring slot, as it does in the row-major layout of the array.
* An access outside the whole array is undefined behaviour: the operation yields `none`.
* `insert_char` and `remove_char` record every index they read or write.
* `int` variables are unbounded integers: `pos` and `len` move in steps of one or to a
  string length inside the array, and a run whose index leaves the array stops as
  undefined behaviour, so no `int` of the editor overflows for an array below `2^31` bytes.
* `write` always writes all the bytes it is given.
* One `read(fd, inbuf, 4)` is a value of `Read`: the count returned and the four bytes
  of `inbuf` after the call (the positions past the count hold whatever was there).
* The terminal mode calls (`tcgetattr`, `cfmakeraw`, `tcsetattr`, `setvbuf`) do not
  touch the editor state and are left out.
-/

namespace Script

/-- Byte memory: address to byte value. -/
abbrev Mem := Int → Nat

/-- `m[a] = v`. -/
def poke (m : Mem) (a : Int) (v : Nat) : Mem := fun x => if x = a then v else m x

/-- One indexing of the `char *buffer` argument of `insert_char` / `remove_char`. -/
inductive Access where
  | load (i : Int)
  | store (i : Int)
  deriving DecidableEq

/-- The index used by an access. -/
def Access.idx : Access → Int
  | Access.load i => i
  | Access.store i => i

/-- Whether the access is a write. -/
def Access.isStore : Access → Bool
  | Access.load _ => false
  | Access.store _ => true

/-- Memory together with the indices used so far. -/
structure Buf where
  mem : Mem
  trace : List Access

/-- The `while (max >= pos)` loop of `insert_char`; `buffer` is the address the
pointer argument holds. -/
def insert_char_loop (buffer pos : Int) : Nat → Int → Buf → Buf
  | 0, _, b => b
  | fuel + 1, max, b =>
    if max ≥ pos then
      insert_char_loop buffer pos fuel (max - 1)
        ⟨poke b.mem (buffer + (max + 1)) (b.mem (buffer + max)),
         b.trace ++ [Access.load max, Access.store (max + 1)]⟩
    else b

/-- `insert_char(c, buffer, pos, len)`. The loop runs `len + 1 - pos` times when
`pos <= len` and not at all otherwise. -/
def insert_char (c : Nat) (m : Mem) (buffer pos len : Int) : Buf :=
  let b := insert_char_loop buffer pos (len + 1 - pos).toNat len ⟨m, []⟩
  ⟨poke b.mem (buffer + pos) c, b.trace ++ [Access.store pos]⟩

/-- The `while (pos < len)` loop of `remove_char`; returns the final `pos` too. -/
def remove_char_loop (buffer len : Int) : Nat → Int → Buf → Int × Buf
  | 0, pos, b => (pos, b)
  | fuel + 1, pos, b =>
    if pos < len then
      remove_char_loop buffer len fuel (pos + 1)
        ⟨poke b.mem (buffer + pos) (b.mem (buffer + (pos + 1))),
         b.trace ++ [Access.load (pos + 1), Access.store pos]⟩
    else (pos, b)

/-- `remove_char(buffer, pos, len)`. -/
def remove_char (m : Mem) (buffer pos len : Int) : Buf :=
  let r := remove_char_loop buffer len (len - pos).toNat pos ⟨m, []⟩
  ⟨poke r.2.mem (buffer + r.1) 0, r.2.trace ++ [Access.store r.1]⟩

/-- `some b` when every index of the trace, taken from address `buffer`, is inside
the array `[0, limit)`; `none` (undefined behaviour) otherwise. -/
def checked (limit buffer : Int) (b : Buf) : Option Buf :=
  if b.trace.all (fun a => decide (0 ≤ buffer + a.idx ∧ buffer + a.idx < limit)) then some b
  else none

/-- What the editor sends to `fd`, one item per call. -/
inductive Out where
  | write (bytes : List Nat)
  | left (n : Int)
  | right (n : Int)
  deriving DecidableEq

/-- `%d`. -/
def fmt_d (n : Int) : List Nat :=
  if n < 0 then 45 :: (Nat.toDigits 10 n.natAbs).map Char.toNat
  else (Nat.toDigits 10 n.toNat).map Char.toNat

/-- The bytes an item puts on the wire. -/
def Out.bytes : Out → List Nat
  | Out.write bs => bs
  | Out.left n => [27, 91] ++ fmt_d n ++ [68]
  | Out.right n => [27, 91] ++ fmt_d n ++ [67]

/-- The byte stream of a list of items. -/
def render (o : List Out) : List Nat := (o.map Out.bytes).flatten

/-- `move_left(fd, n)`: `sprintf(buf, "\x1b[%dD", n)` then `write`. -/
def move_left (n : Int) : List Out := [Out.left n]

/-- `move_right(fd, n)`: `sprintf(buf, "\x1b[%dC", n)` then `write`. -/
def move_right (n : Int) : List Out := [Out.right n]

/-- The scan of `strlen` from address `ptr`: `none` when it runs to the end of the
array (the fuel) without meeting a NUL. -/
def strlen_loop (m : Mem) (ptr : Int) : Nat → Int → Option Int
  | 0, _ => none
  | fuel + 1, i => if m (ptr + i) = 0 then some i else strlen_loop m ptr fuel (i + 1)

/-- `strlen(ptr)` in an array occupying `[0, limit)`. -/
def strlen (limit : Int) (m : Mem) (ptr : Int) : Option Int :=
  if 0 ≤ ptr then strlen_loop m ptr (limit - ptr).toNat 0 else none

/-- The `n` bytes at address `ptr`. -/
def bytes_at (m : Mem) (ptr n : Int) : List Nat :=
  List.map (fun (k : Nat) => m (ptr + (k : Int))) (List.range n.toNat)

/-- `print_str(fd, ptr)` for a string literal with the bytes `s`. -/
def print_lit (s : List Nat) : List Out × Int :=
  if (s.length : Int) > 0 then ([Out.write s], s.length) else ([], 0)

/-- `print_str(fd, ptr)` for a pointer into the array. -/
def print_str (limit : Int) (m : Mem) (ptr : Int) : Option (List Out × Int) :=
  match strlen limit m ptr with
  | none => none
  | some len => if len > 0 then some ([Out.write (bytes_at m ptr len)], len) else some ([], 0)

/-- `print_line(fd, ptr)`. -/
def print_line (limit : Int) (m : Mem) (ptr : Int) : Option (List Out × Int) :=
  match print_str limit m ptr with
  | none => none
  | some (o, len) => if len > 0 then some (o ++ move_left len, len) else some (o, len)

/-- One `read(fd, inbuf, sizeof(inbuf))`. -/
structure Read where
  readed : Int
  inbuf : Nat → Nat

/-- The variables of `read_command`. -/
structure State where
  buffer : Mem
  current_history : Int
  pos : Int
  len : Int
  on_loop : Bool

/-- The effect of one pass through the loop body. -/
structure Step where
  st : State
  out : List Out
  diag : List (List Nat)
  trace : List Access

/-- A pass that changes nothing. -/
def Step.skip (s : State) : Step := ⟨s, [], [], []⟩

/-- `case 65` / `case 66` after the index has moved to `ch`. -/
def history_go (size history_size : Int) (s : State) (ch : Int) : Option Step :=
  match strlen (history_size * size) s.buffer (ch * size) with
  | none => none
  | some len =>
    let pos := max s.pos len
    some ⟨{ s with current_history := ch, len := len, pos := pos },
          move_left s.pos ++ [Out.write (bytes_at s.buffer (ch * size) len)] ++ move_right (len - pos),
          [], []⟩

/-- The body of `case '\b': case 127:`. -/
def case_backspace (size history_size : Int) (s : State) : Option Step :=
  let limit := history_size * size
  let slot := s.current_history * size
  if s.pos > 0 then
    let pos := s.pos - 1
    match checked limit slot (remove_char s.buffer slot pos s.len) with
    | none => none
    | some b =>
      match print_line limit b.mem (slot + pos) with
      | none => none
      | some (o, _) =>
        some ⟨{ s with buffer := b.mem, pos := pos, len := s.len - 1 },
              move_left 1 ++ (print_lit [27, 91, 75]).1 ++ o, [], b.trace⟩
  else some (Step.skip s)

/-- The body of `case 51: // DEL`. -/
def case_del (size history_size : Int) (s : State) : Option Step :=
  let limit := history_size * size
  let slot := s.current_history * size
  if s.pos < s.len then
    match checked limit slot (remove_char s.buffer slot s.pos s.len) with
    | none => none
    | some b =>
      match print_line limit b.mem (slot + s.pos) with
      | none => none
      | some (o, _) =>
        some ⟨{ s with buffer := b.mem, len := s.len - 1 },
              (print_lit [27, 91, 75]).1 ++ o, [], b.trace⟩
  else some (Step.skip s)

/-- The inner `switch (inbuf[2])`, reached when `inbuf[1] == 91`. -/
def case_arrow (size history_size : Int) (s : State) (r : Read) : Option Step :=
  if r.inbuf 2 = 65 then
    if s.current_history < history_size - 1 then
      history_go size history_size s (s.current_history + 1)
    else some (Step.skip s)
  else if r.inbuf 2 = 66 then
    if s.current_history > 0 then
      history_go size history_size s (s.current_history - 1)
    else some (Step.skip s)
  else if r.inbuf 2 = 67 then
    if s.pos < s.len then some ⟨{ s with pos := s.pos + 1 }, move_right 1, [], []⟩
    else some (Step.skip s)
  else if r.inbuf 2 = 68 then
    if s.pos > 0 then some ⟨{ s with pos := s.pos - 1 }, move_left 1, [], []⟩
    else some (Step.skip s)
  else if r.inbuf 2 = 72 then
    some ⟨{ s with pos := 0 }, move_left s.pos, [], []⟩
  else if r.inbuf 2 = 70 then
    some ⟨{ s with pos := s.len }, move_right (s.len - s.pos), [], []⟩
  else if r.inbuf 2 = 51 then
    case_del size history_size s
  else
    some ⟨s, [], [(List.range r.readed.toNat).map r.inbuf], []⟩

/-- The body of `default:` for the byte `c = inbuf[0]`. -/
def case_default (size history_size : Int) (s : State) (c : Nat) : Option Step :=
  let limit := history_size * size
  let slot := s.current_history * size
  if s.len < size - 1 then
    match checked limit slot (insert_char c s.buffer slot s.pos s.len) with
    | none => none
    | some b =>
      match print_line limit b.mem (slot + s.pos) with
      | none => none
      | some (o, _) =>
        some ⟨{ s with buffer := b.mem, pos := s.pos + 1, len := s.len + 1 },
              o ++ move_right 1, [], b.trace⟩
  else some (Step.skip s)

/-- The body of `while (on_loop)` for one read: the `switch (inbuf[0])`. -/
def step (size history_size : Int) (s : State) (r : Read) : Option Step :=
  if r.readed ≥ 1 then
    if r.inbuf 0 = 13 ∨ r.inbuf 0 = 10 then
      some ⟨{ s with on_loop := false }, (print_lit [13, 10]).1, [], []⟩
    else if r.inbuf 0 = 8 ∨ r.inbuf 0 = 127 then
      case_backspace size history_size s
    else if r.inbuf 0 = 27 then
      if r.inbuf 1 = 91 then case_arrow size history_size s r
      else some (Step.skip s)
    else
      case_default size history_size s (r.inbuf 0)
  else some (Step.skip s)

/-- `memset(ptr, 0, n)`. -/
def memset0 (m : Mem) (ptr n : Int) : Mem := fun a => if ptr ≤ a ∧ a < ptr + n then 0 else m a

/-- A run of `read_command` so far: the variables, what went to `fd`, what went to
`stdout`, and the reads not consumed. -/
structure Session where
  st : State
  out : List Out
  diag : List (List Nat)
  rest : List Read

/-- The `while (on_loop)` loop over the reads the terminal delivers. It stops when
`on_loop` is false (the function returns) or when no read is left (the function is
blocked in `read`). -/
def loop (size history_size : Int) : List Read → Session → Option Session
  | [], ss => some { ss with rest := [] }
  | r :: rs, ss =>
    if ss.st.on_loop then
      match step size history_size ss.st r with
      | none => none
      | some e => loop size history_size rs ⟨e.st, ss.out ++ e.out, ss.diag ++ e.diag, rs⟩
    else some { ss with rest := r :: rs }

/-- The state on entry to the loop: the start slot cleared, `pos = 0`, `len = 0`. -/
def init (size : Int) (buffer : Mem) (current_history : Int) : State :=
  ⟨memset0 buffer (current_history * size) size, current_history, 0, 0, true⟩

/-- `read_command(buffer, current_history, f)` on the reads `input`. `none` is
undefined behaviour; a result with `on_loop = false` has returned
`st.current_history`; a result with `on_loop = true` is still waiting for input. -/
def read_command (size history_size : Int) (buffer : Mem) (current_history : Int)
    (input : List Read) : Option Session :=
  if 0 ≤ current_history * size ∧ current_history * size + size ≤ history_size * size then
    loop size history_size input ⟨init size buffer current_history, [], [], input⟩
  else none

/-- The read is handled by the `default:` label. -/
def Read.printable (r : Read) : Prop :=
  r.readed ≥ 1 ∧ r.inbuf 0 ≠ 13 ∧ r.inbuf 0 ≠ 10 ∧ r.inbuf 0 ≠ 8 ∧ r.inbuf 0 ≠ 127 ∧
    r.inbuf 0 ≠ 27

/-- The read is handled by `case '\b': case 127:`. -/
def Read.backspace (r : Read) : Prop := r.readed ≥ 1 ∧ (r.inbuf 0 = 8 ∨ r.inbuf 0 = 127)

/-- The read is handled by `case '\r': case '\n':`. -/
def Read.commit (r : Read) : Prop := r.readed ≥ 1 ∧ (r.inbuf 0 = 13 ∨ r.inbuf 0 = 10)

/-- The read starts with ESC `[` `x`. -/
def Read.csi (r : Read) (x : Nat) : Prop :=
  r.readed ≥ 1 ∧ r.inbuf 0 = 27 ∧ r.inbuf 1 = 91 ∧ r.inbuf 2 = x

/-- A read that delivered the single byte `c`; the rest of `inbuf` holds zeros. -/
def key (c : Nat) : Read := ⟨1, fun i => if i = 0 then c else 0⟩

/-- A read that delivered the three bytes ESC `[` `x`. -/
def csi (x : Nat) : Read :=
  ⟨3, fun i => if i = 0 then 27 else if i = 1 then 91 else if i = 2 then x else 0⟩

/-- Memory holding the bytes `l` from address `0` on and zeros elsewhere. -/
def mem_of (l : List Nat) : Mem := fun a => if 0 ≤ a then l.getD a.toNat 0 else 0

/-- The value `read_command` has returned, when it has returned. -/
def Session.returned (ss : Session) : Option Int :=
  if ss.st.on_loop then none else some ss.st.current_history

/-- The reads ESC `[` `A`, "x", ESC `[` `B`, Backspace, then `n` times "a", then Enter. -/
def overfill (n : Nat) : List Read :=
  [csi 65, key 120, csi 66, key 8] ++ (List.replicate n (key 97) ++ [key 13])

/-- A read that delivered only the byte ESC; the rest of `inbuf` holds zeros. -/
def esc_alone : Read := ⟨1, fun i => if i = 0 then 27 else 0⟩

/-- A read that delivered the two bytes `[` `x`. -/
def bracket (x : Nat) : Read := ⟨2, fun i => if i = 0 then 91 else if i = 1 then x else 0⟩

/-- Horizontal displacement of one item sent to `fd`: `+1` for each byte written as
text, `0` for the erase sequence ESC `[` `K`, `-n` for ESC `[` n `D`, `+n` for
ESC `[` n `C`. -/
def Out.shift : Out → Int
  | Out.write bs => if bs = [27, 91, 75] then 0 else (bs.length : Int)
  | Out.left n => -n
  | Out.right n => n

/-- Net horizontal displacement of what a pass sends to `fd`. -/
def displacement (o : List Out) : Int := (o.map Out.shift).sum

/-- The line is well formed: `0 ≤ pos ≤ len ≤ size - 1`, the bytes of the live slot
before `len` are not NUL and the bytes from `len` to the end of the slot are NUL. -/
def State.tidy (size : Int) (s : State) : Prop :=
  0 ≤ s.pos ∧ s.pos ≤ s.len ∧ s.len ≤ size - 1 ∧
  (∀ j, 0 ≤ j → j < s.len → s.buffer (s.current_history * size + j) ≠ 0) ∧
  (∀ j, s.len ≤ j → j < size → s.buffer (s.current_history * size + j) = 0)

/-- The read is neither decoded as HistoryOlder or HistoryNewer nor as the printable
byte NUL. -/
def Read.plain (r : Read) : Prop :=
  ¬ r.csi 65 ∧ ¬ r.csi 66 ∧ (r.readed ≥ 1 → r.inbuf 0 ≠ 0)

/-! ## Memory lemmas -/

theorem poke_apply (m : Mem) (a : Int) (v : Nat) (x : Int) :
    poke m a v x = if x = a then v else m x := rfl

theorem insert_char_loop_mem (buffer pos : Int) (fuel : Nat) :
    ∀ (max : Int) (b : Buf), (max + 1 - pos).toNat ≤ fuel → ∀ a : Int,
      (insert_char_loop buffer pos fuel max b).mem a =
        if buffer + pos < a ∧ a ≤ buffer + max + 1 then b.mem (a - 1) else b.mem a := by
  induction fuel with
  | zero =>
    intro max b hf a
    have : ¬ (buffer + pos < a ∧ a ≤ buffer + max + 1) := by omega
    simp [insert_char_loop, this]
  | succ n ih =>
    intro max b hf a
    unfold insert_char_loop
    split
    · rename_i h
      rw [ih (max - 1) _ (by omega) a]
      simp only [poke_apply]
      split_ifs <;> first | rfl | omega | (congr 1; omega)
    · rename_i h
      have : ¬ (buffer + pos < a ∧ a ≤ buffer + max + 1) := by omega
      simp [this]

theorem insert_char_loop_trace (buffer pos : Int) (fuel : Nat) :
    ∀ (max : Int) (b : Buf), ∀ x ∈ (insert_char_loop buffer pos fuel max b).trace,
      x ∈ b.trace ∨ (pos ≤ x.idx ∧ x.idx ≤ max + 1) := by
  induction fuel with
  | zero => intro max b x hx; exact Or.inl hx
  | succ n ih =>
    intro max b x hx
    unfold insert_char_loop at hx
    split at hx
    · rename_i h
      rcases ih _ _ x hx with h1 | h1
      · simp only [List.mem_append, List.mem_cons, List.mem_singleton, List.not_mem_nil, or_false] at h1
        rcases h1 with h1 | h1 | h1
        · exact Or.inl h1
        · subst h1; right; simp only [Access.idx]; omega
        · subst h1; right; simp only [Access.idx]; omega
      · right; omega
    · exact Or.inl hx

theorem insert_char_mem (c : Nat) (m : Mem) (buffer pos len a : Int) :
    (insert_char c m buffer pos len).mem a =
      if a = buffer + pos then c
      else if buffer + pos < a ∧ a ≤ buffer + len + 1 then m (a - 1) else m a := by
  simp only [insert_char, poke_apply]
  rw [insert_char_loop_mem buffer pos _ len _ (le_refl _) a]

theorem insert_char_trace (c : Nat) (m : Mem) (buffer pos len : Int) :
    ∀ x ∈ (insert_char c m buffer pos len).trace,
      pos ≤ x.idx ∧ (x.idx ≤ len + 1 ∨ x.idx = pos) := by
  intro x hx
  simp only [insert_char, List.mem_append, List.mem_singleton] at hx
  rcases hx with hx | hx
  · rcases insert_char_loop_trace _ _ _ _ _ x hx with h | h
    · simp at h
    · exact ⟨h.1, Or.inl h.2⟩
  · subst hx; simp [Access.idx]

theorem remove_char_loop_spec (buffer len : Int) (fuel : Nat) :
    ∀ (pos : Int) (b : Buf), (len - pos).toNat ≤ fuel →
      (remove_char_loop buffer len fuel pos b).1 = max pos len ∧
      ∀ a : Int, (remove_char_loop buffer len fuel pos b).2.mem a =
        if buffer + pos ≤ a ∧ a < buffer + len then b.mem (a + 1) else b.mem a := by
  induction fuel with
  | zero =>
    intro pos b hf
    have h1 : len ≤ pos := by omega
    refine ⟨by simp [remove_char_loop, h1], fun a => ?_⟩
    have : ¬ (buffer + pos ≤ a ∧ a < buffer + len) := by omega
    simp [remove_char_loop, this]
  | succ n ih =>
    intro pos b hf
    unfold remove_char_loop
    split
    · rename_i h
      obtain ⟨ih1, ih2⟩ := ih (pos + 1) ⟨poke b.mem (buffer + pos) (b.mem (buffer + (pos + 1))),
         b.trace ++ [Access.load (pos + 1), Access.store pos]⟩ (by omega)
      refine ⟨by rw [ih1]; omega, fun a => ?_⟩
      rw [ih2 a]
      simp only [poke_apply]
      split_ifs <;> first | rfl | omega | (congr 1; omega)
    · rename_i h
      refine ⟨by simp; omega, fun a => ?_⟩
      have : ¬ (buffer + pos ≤ a ∧ a < buffer + len) := by omega
      simp [this]

theorem remove_char_loop_trace (buffer len : Int) (fuel : Nat) :
    ∀ (pos : Int) (b : Buf), ∀ x ∈ (remove_char_loop buffer len fuel pos b).2.trace,
      x ∈ b.trace ∨ (pos ≤ x.idx ∧ x.idx ≤ len) := by
  induction fuel with
  | zero => intro pos b x hx; exact Or.inl hx
  | succ n ih =>
    intro pos b x hx
    unfold remove_char_loop at hx
    split at hx
    · rename_i h
      rcases ih _ _ x hx with h1 | h1
      · simp only [List.mem_append, List.mem_cons, List.mem_singleton, List.not_mem_nil, or_false] at h1
        rcases h1 with h1 | h1 | h1
        · exact Or.inl h1
        · subst h1; right; simp only [Access.idx]; omega
        · subst h1; right; simp only [Access.idx]; omega
      · right; omega
    · exact Or.inl hx

theorem remove_char_mem (m : Mem) (buffer pos len a : Int) :
    (remove_char m buffer pos len).mem a =
      if a = buffer + max pos len then 0
      else if buffer + pos ≤ a ∧ a < buffer + len then m (a + 1) else m a := by
  obtain ⟨h1, h2⟩ := remove_char_loop_spec buffer len _ pos ⟨m, []⟩ (le_refl _)
  simp only [remove_char, poke_apply, h1, h2]

theorem remove_char_trace (m : Mem) (buffer pos len : Int) :
    ∀ x ∈ (remove_char m buffer pos len).trace, pos ≤ x.idx ∧ x.idx ≤ max pos len := by
  intro x hx
  obtain ⟨h1, _⟩ := remove_char_loop_spec buffer len _ pos ⟨m, []⟩ (le_refl _)
  simp only [remove_char, List.mem_append, List.mem_singleton] at hx
  rcases hx with hx | hx
  · rcases remove_char_loop_trace _ _ _ _ _ x hx with h | h
    · simp at h
    · exact ⟨h.1, by omega⟩
  · subst hx; rw [h1]; simp only [Access.idx]; omega

/-! ## Strings in memory -/

theorem strlen_loop_exists (m : Mem) (ptr : Int) (fuel : Nat) :
    ∀ (i k : Int), i ≤ k → (k - i).toNat < fuel → m (ptr + k) = 0 →
      ∃ n, i ≤ n ∧ n ≤ k ∧ strlen_loop m ptr fuel i = some n ∧ m (ptr + n) = 0 ∧
        ∀ j, i ≤ j → j < n → m (ptr + j) ≠ 0 := by
  induction fuel with
  | zero => intro i k _ hf; omega
  | succ f ih =>
    intro i k hik hf hk
    unfold strlen_loop
    by_cases h0 : m (ptr + i) = 0
    · exact ⟨i, le_refl _, hik, by simp [h0], h0, fun j h1 h2 => by omega⟩
    · have hne : i ≠ k := fun h => h0 (h ▸ hk)
      obtain ⟨n, h1, h2, h3, h4, h5⟩ := ih (i + 1) k (by omega) (by omega) hk
      refine ⟨n, by omega, h2, by simp [h0, h3], h4, fun j hj1 hj2 => ?_⟩
      by_cases hji : j = i
      · subst hji; exact h0
      · exact h5 j (by omega) hj2

theorem strlen_exists (limit : Int) (m : Mem) (ptr k : Int) (hp : 0 ≤ ptr) (hk : 0 ≤ k)
    (hl : ptr + k < limit) (h0 : m (ptr + k) = 0) :
    ∃ n, 0 ≤ n ∧ n ≤ k ∧ strlen limit m ptr = some n ∧ m (ptr + n) = 0 ∧
      ∀ j, 0 ≤ j → j < n → m (ptr + j) ≠ 0 := by
  unfold strlen
  rw [if_pos hp]
  exact strlen_loop_exists m ptr _ 0 k hk (by omega) h0

theorem strlen_found (limit : Int) (m : Mem) (ptr n : Int) (hp : 0 ≤ ptr) (hn : 0 ≤ n)
    (hl : ptr + n < limit) (h0 : m (ptr + n) = 0)
    (hne : ∀ j, 0 ≤ j → j < n → m (ptr + j) ≠ 0) :
    strlen limit m ptr = some n := by
  obtain ⟨n', h1, h2, h3, h4, _⟩ := strlen_exists limit m ptr n hp hn hl h0
  have : n' = n := by
    by_contra hc
    exact hne n' h1 (by omega) h4
  rw [h3, this]

theorem print_line_of_strlen (limit : Int) (m : Mem) (ptr n : Int)
    (h : strlen limit m ptr = some n) :
    print_line limit m ptr =
      some (if n > 0 then [Out.write (bytes_at m ptr n), Out.left n] else [],
            if n > 0 then n else 0) := by
  unfold print_line print_str
  rw [h]
  by_cases hn : n > 0 <;> simp [hn, move_left]

theorem checked_some (limit buffer : Int) (b : Buf)
    (h : ∀ x ∈ b.trace, 0 ≤ buffer + x.idx ∧ buffer + x.idx < limit) :
    checked limit buffer b = some b := by
  unfold checked
  rw [if_pos]
  rw [List.all_eq_true]
  intro x hx
  exact decide_eq_true (h x hx)

theorem slot_bounds (size history_size ch : Int) (h0 : 0 ≤ ch) (h1 : ch < history_size)
    (hs : 0 ≤ size) : 0 ≤ ch * size ∧ ch * size + size ≤ history_size * size := by
  constructor
  · exact mul_nonneg h0 hs
  · have : (ch + 1) * size ≤ history_size * size :=
      mul_le_mul_of_nonneg_right (by omega) hs
    linarith

theorem bytes_at_length (m : Mem) (ptr n : Int) : (bytes_at m ptr n).length = n.toNat := by
  simp [bytes_at]

theorem bytes_at_congr (m m' : Mem) (ptr ptr' n : Int)
    (h : ∀ k : Int, 0 ≤ k → k < n → m (ptr + k) = m' (ptr' + k)) :
    bytes_at m ptr n = bytes_at m' ptr' n := by
  unfold bytes_at
  apply List.map_congr_left
  intro k hk
  rw [List.mem_range] at hk
  exact h k (by omega) (by omega)

theorem bytes_at_append (m : Mem) (ptr a b : Int) (ha : 0 ≤ a) (hb : 0 ≤ b) :
    bytes_at m ptr (a + b) = bytes_at m ptr a ++ bytes_at m (ptr + a) b := by
  apply List.ext_getElem
  · simp [bytes_at_length]; omega
  · intro i h1 h2
    simp only [bytes_at_length] at h1
    by_cases hi : i < a.toNat
    · rw [List.getElem_append_left (by simpa [bytes_at_length] using hi)]
      simp [bytes_at]
    · rw [List.getElem_append_right (by simpa [bytes_at_length] using hi)]
      simp only [bytes_at, List.getElem_map, List.getElem_range, List.length_map, List.length_range]
      congr 1
      omega

theorem bytes_at_one (m : Mem) (ptr : Int) : bytes_at m ptr 1 = [m ptr] := by
  simp [bytes_at, List.range_succ]

/-! ## Single events -/

theorem insert_char_content (c : Nat) (m : Mem) (buffer pos len : Int) (h0 : 0 ≤ pos)
    (h1 : pos ≤ len) :
    bytes_at (insert_char c m buffer pos len).mem buffer (len + 1) =
      bytes_at m buffer pos ++ [c] ++ bytes_at m (buffer + pos) (len - pos) := by
  have e : len + 1 = pos + (1 + (len - pos)) := by omega
  rw [e, bytes_at_append _ _ _ _ h0 (by omega), bytes_at_append _ _ _ _ (by omega) (by omega),
    bytes_at_one, List.append_assoc]
  congr 1
  · apply bytes_at_congr
    intro k hk0 hk1
    rw [insert_char_mem, if_neg (by omega), if_neg (by omega)]
  · congr 1
    · rw [insert_char_mem, if_pos rfl]
    · apply bytes_at_congr
      intro k hk0 hk1
      rw [insert_char_mem, if_neg (by omega), if_pos (by omega)]
      congr 1; omega

theorem remove_char_content (m : Mem) (buffer pos len : Int) (h0 : 0 ≤ pos) (h1 : pos < len) :
    bytes_at (remove_char m buffer pos len).mem buffer (len - 1) =
      bytes_at m buffer pos ++ bytes_at m (buffer + (pos + 1)) (len - 1 - pos) := by
  have e := bytes_at_append (remove_char m buffer pos len).mem buffer pos (len - 1 - pos) h0
    (by omega)
  have e' : pos + (len - 1 - pos) = len - 1 := by omega
  rw [e'] at e
  rw [e]
  congr 1
  · apply bytes_at_congr
    intro k hk0 hk1
    rw [remove_char_mem, if_neg (by omega), if_neg (by omega)]
  · apply bytes_at_congr
    intro k hk0 hk1
    rw [remove_char_mem, if_neg (by omega), if_pos (by omega)]
    congr 1; omega

theorem step_printable (size history_size : Int) (s : State) (r : Read) (hr : r.printable)
    (hc0 : 0 ≤ s.current_history) (hc1 : s.current_history < history_size)
    (hp0 : 0 ≤ s.pos) (hpl : s.pos ≤ s.len) (hl : s.len < size - 1)
    (hz : s.buffer (s.current_history * size + s.len) = 0) :
    ∃ n, 0 ≤ n ∧ n ≤ s.len + 1 - s.pos ∧
      strlen (history_size * size)
        (insert_char (r.inbuf 0) s.buffer (s.current_history * size) s.pos s.len).mem
        (s.current_history * size + s.pos) = some n ∧
      step size history_size s r =
        some ⟨{ s with
                buffer := (insert_char (r.inbuf 0) s.buffer (s.current_history * size)
                            s.pos s.len).mem,
                pos := s.pos + 1, len := s.len + 1 },
              (if n > 0 then
                [Out.write (bytes_at (insert_char (r.inbuf 0) s.buffer
                    (s.current_history * size) s.pos s.len).mem
                    (s.current_history * size + s.pos) n), Out.left n]
               else []) ++ [Out.right 1],
              [],
              (insert_char (r.inbuf 0) s.buffer (s.current_history * size) s.pos s.len).trace⟩ := by
  obtain ⟨h1, h2, h3, h4, h5, h6⟩ := hr
  obtain ⟨hb0, hb1⟩ := slot_bounds size history_size s.current_history hc0 hc1 (by omega)
  have hchk := checked_some (history_size * size) (s.current_history * size)
    (insert_char (r.inbuf 0) s.buffer (s.current_history * size) s.pos s.len) (by
      intro x hx
      have := insert_char_trace _ _ _ _ _ x hx
      omega)
  have hnul : (insert_char (r.inbuf 0) s.buffer (s.current_history * size) s.pos s.len).mem
      (s.current_history * size + s.pos + (s.len + 1 - s.pos)) = 0 := by
    rw [insert_char_mem]
    rw [if_neg (by omega), if_pos (by omega)]
    rw [← hz]; congr 1; omega
  obtain ⟨n, hn0, hn1, hn2, _, _⟩ := strlen_exists (history_size * size) _
    (s.current_history * size + s.pos) (s.len + 1 - s.pos) (by omega) (by omega) (by omega) hnul
  refine ⟨n, hn0, hn1, hn2, ?_⟩
  unfold step case_backspace case_arrow case_del case_default
  simp only [ge_iff_le, h1, if_true, h2, h3, h4, h5, h6, or_self, if_false, hl, hchk,
    print_line_of_strlen _ _ _ _ hn2, move_right]

theorem step_backspace (size history_size : Int) (s : State) (r : Read) (hr : r.backspace)
    (hc0 : 0 ≤ s.current_history) (hc1 : s.current_history < history_size)
    (hp0 : 0 < s.pos) (hpl : s.pos ≤ s.len) (hl : s.len ≤ size - 1)
    (hz : s.buffer (s.current_history * size + s.len) = 0) :
    ∃ n, 0 ≤ n ∧ n ≤ s.len - s.pos ∧
      strlen (history_size * size)
        (remove_char s.buffer (s.current_history * size) (s.pos - 1) s.len).mem
        (s.current_history * size + (s.pos - 1)) = some n ∧
      step size history_size s r =
        some ⟨{ s with
                buffer := (remove_char s.buffer (s.current_history * size)
                            (s.pos - 1) s.len).mem,
                pos := s.pos - 1, len := s.len - 1 },
              [Out.left 1, Out.write [27, 91, 75]] ++
              (if n > 0 then
                [Out.write (bytes_at (remove_char s.buffer (s.current_history * size)
                    (s.pos - 1) s.len).mem (s.current_history * size + (s.pos - 1)) n),
                 Out.left n]
               else []),
              [],
              (remove_char s.buffer (s.current_history * size) (s.pos - 1) s.len).trace⟩ := by
  obtain ⟨h1, h2⟩ := hr
  obtain ⟨hb0, hb1⟩ := slot_bounds size history_size s.current_history hc0 hc1 (by omega)
  have hchk := checked_some (history_size * size) (s.current_history * size)
    (remove_char s.buffer (s.current_history * size) (s.pos - 1) s.len) (by
      intro x hx
      have := remove_char_trace _ _ _ _ x hx
      omega)
  have hnul : (remove_char s.buffer (s.current_history * size) (s.pos - 1) s.len).mem
      (s.current_history * size + (s.pos - 1) + (s.len - s.pos)) = 0 := by
    rw [remove_char_mem]
    rw [if_neg (by omega), if_pos (by omega)]
    rw [← hz]; congr 1; omega
  obtain ⟨n, hn0, hn1, hn2, _, _⟩ := strlen_exists (history_size * size) _
    (s.current_history * size + (s.pos - 1)) (s.len - s.pos) (by omega) (by omega) (by omega) hnul
  refine ⟨n, hn0, hn1, hn2, ?_⟩
  have hne : ¬ (r.inbuf 0 = 13 ∨ r.inbuf 0 = 10) := by omega
  unfold step case_backspace case_arrow case_del case_default
  simp only [ge_iff_le, h1, if_true, h2, hne, if_false, gt_iff_lt, hp0, hchk,
    print_line_of_strlen _ _ _ _ hn2, move_left, print_lit]
  simp

theorem step_backspace_home (size history_size : Int) (s : State) (r : Read)
    (hr : r.backspace) (hp : s.pos ≤ 0) :
    step size history_size s r = some (Step.skip s) := by
  obtain ⟨h1, h2⟩ := hr
  have hne : ¬ (r.inbuf 0 = 13 ∨ r.inbuf 0 = 10) := by omega
  have hp' : ¬ (s.pos > 0) := by omega
  unfold step case_backspace case_arrow case_del case_default
  simp only [ge_iff_le, h1, if_true, h2, hne, if_false, hp']

theorem step_delete (size history_size : Int) (s : State) (r : Read) (hr : r.csi 51)
    (hc0 : 0 ≤ s.current_history) (hc1 : s.current_history < history_size)
    (hp0 : 0 ≤ s.pos) (hpl : s.pos < s.len) (hl : s.len ≤ size - 1)
    (hz : s.buffer (s.current_history * size + s.len) = 0) :
    ∃ n, 0 ≤ n ∧ n ≤ s.len - 1 - s.pos ∧
      strlen (history_size * size)
        (remove_char s.buffer (s.current_history * size) s.pos s.len).mem
        (s.current_history * size + s.pos) = some n ∧
      step size history_size s r =
        some ⟨{ s with
                buffer := (remove_char s.buffer (s.current_history * size) s.pos s.len).mem,
                len := s.len - 1 },
              [Out.write [27, 91, 75]] ++
              (if n > 0 then
                [Out.write (bytes_at (remove_char s.buffer (s.current_history * size)
                    s.pos s.len).mem (s.current_history * size + s.pos) n),
                 Out.left n]
               else []),
              [],
              (remove_char s.buffer (s.current_history * size) s.pos s.len).trace⟩ := by
  obtain ⟨h1, h2, h3, h4⟩ := hr
  obtain ⟨hb0, hb1⟩ := slot_bounds size history_size s.current_history hc0 hc1 (by omega)
  have hchk := checked_some (history_size * size) (s.current_history * size)
    (remove_char s.buffer (s.current_history * size) s.pos s.len) (by
      intro x hx
      have := remove_char_trace _ _ _ _ x hx
      omega)
  have hnul : (remove_char s.buffer (s.current_history * size) s.pos s.len).mem
      (s.current_history * size + s.pos + (s.len - 1 - s.pos)) = 0 := by
    rw [remove_char_mem]
    rw [if_neg (by omega), if_pos (by omega)]
    rw [← hz]; congr 1; omega
  obtain ⟨n, hn0, hn1, hn2, _, _⟩ := strlen_exists (history_size * size) _
    (s.current_history * size + s.pos) (s.len - 1 - s.pos) (by omega) (by omega) (by omega) hnul
  refine ⟨n, hn0, hn1, hn2, ?_⟩
  unfold step case_backspace case_arrow case_del case_default
  simp only [ge_iff_le, h1, if_true, h2, h3, h4, hpl, hchk,
    print_line_of_strlen _ _ _ _ hn2, print_lit]
  simp

theorem step_delete_end (size history_size : Int) (s : State) (r : Read) (hr : r.csi 51)
    (hp : s.len ≤ s.pos) :
    step size history_size s r = some (Step.skip s) := by
  obtain ⟨h1, h2, h3, h4⟩ := hr
  have hp' : ¬ (s.pos < s.len) := by omega
  unfold step case_backspace case_arrow case_del case_default
  simp only [ge_iff_le, h1, if_true, h2, h3, h4, hp']
  simp

/-! ## What a pass can do -/


theorem history_go_some (size history_size : Int) (s : State) (ch : Int) (e : Step)
    (h : history_go size history_size s ch = some e) :
    ∃ n, strlen (history_size * size) s.buffer (ch * size) = some n ∧
      e = ⟨{ s with current_history := ch, len := n, pos := max s.pos n },
           [Out.left s.pos, Out.write (bytes_at s.buffer (ch * size) n),
            Out.right (n - max s.pos n)], [], []⟩ := by
  unfold history_go at h
  cases hs : strlen (history_size * size) s.buffer (ch * size) with
  | none => rw [hs] at h; simp at h
  | some n =>
    rw [hs] at h
    simp only [Option.some.injEq, move_left, move_right] at h
    exact ⟨n, rfl, by rw [← h]; simp⟩

theorem checked_eq_some (limit buffer : Int) (b b' : Buf) (h : checked limit buffer b = some b') :
    b' = b ∧ ∀ x ∈ b.trace, 0 ≤ buffer + x.idx ∧ buffer + x.idx < limit := by
  unfold checked at h
  split at h
  · rename_i hc
    simp only [Option.some.injEq] at h
    refine ⟨h.symm, fun x hx => ?_⟩
    rw [List.all_eq_true] at hc
    exact of_decide_eq_true (hc x hx)
  · simp at h

theorem print_line_some (limit : Int) (m : Mem) (ptr : Int) (o : List Out) (l : Int)
    (h : print_line limit m ptr = some (o, l)) :
    ∃ n, strlen limit m ptr = some n ∧
      o = (if n > 0 then [Out.write (bytes_at m ptr n), Out.left n] else []) := by
  cases hs : strlen limit m ptr with
  | none => simp [print_line, print_str, hs] at h
  | some n =>
    rw [print_line_of_strlen limit m ptr n hs] at h
    simp only [Option.some.injEq, Prod.mk.injEq] at h
    exact ⟨n, rfl, h.1.symm⟩

theorem case_backspace_some (size history_size : Int) (s : State) (e : Step)
    (h : case_backspace size history_size s = some e) :
    (s.pos ≤ 0 ∧ e = Step.skip s) ∨
    (0 < s.pos ∧
      (∀ x ∈ (remove_char s.buffer (s.current_history * size) (s.pos - 1) s.len).trace,
        0 ≤ s.current_history * size + x.idx ∧
          s.current_history * size + x.idx < history_size * size) ∧
      ∃ n, strlen (history_size * size)
          (remove_char s.buffer (s.current_history * size) (s.pos - 1) s.len).mem
          (s.current_history * size + (s.pos - 1)) = some n ∧
        e = ⟨{ s with
                buffer := (remove_char s.buffer (s.current_history * size)
                            (s.pos - 1) s.len).mem,
                pos := s.pos - 1, len := s.len - 1 },
              [Out.left 1, Out.write [27, 91, 75]] ++
              (if n > 0 then
                [Out.write (bytes_at (remove_char s.buffer (s.current_history * size)
                    (s.pos - 1) s.len).mem (s.current_history * size + (s.pos - 1)) n),
                 Out.left n]
               else []),
              [],
              (remove_char s.buffer (s.current_history * size) (s.pos - 1) s.len).trace⟩) := by
  unfold case_backspace at h
  simp only at h
  split at h
  · rename_i hp
    right
    cases hc : checked (history_size * size) (s.current_history * size)
        (remove_char s.buffer (s.current_history * size) (s.pos - 1) s.len) with
    | none => rw [hc] at h; simp at h
    | some b =>
      rw [hc] at h
      obtain ⟨hb, htr⟩ := checked_eq_some _ _ _ _ hc
      subst hb
      simp only at h
      cases hpl : print_line (history_size * size)
          (remove_char s.buffer (s.current_history * size) (s.pos - 1) s.len).mem
          (s.current_history * size + (s.pos - 1)) with
      | none => rw [hpl] at h; simp at h
      | some ol =>
        obtain ⟨o, l⟩ := ol
        rw [hpl] at h
        obtain ⟨n, hn, ho⟩ := print_line_some _ _ _ _ _ hpl
        simp only [Option.some.injEq, move_left, print_lit] at h
        refine ⟨by omega, htr, n, hn, ?_⟩
        rw [← h, ho]
        simp
  · rename_i hp
    left
    simp only [Option.some.injEq] at h
    exact ⟨by omega, h.symm⟩

theorem case_del_some (size history_size : Int) (s : State) (e : Step)
    (h : case_del size history_size s = some e) :
    (s.len ≤ s.pos ∧ e = Step.skip s) ∨
    (s.pos < s.len ∧
      (∀ x ∈ (remove_char s.buffer (s.current_history * size) s.pos s.len).trace,
        0 ≤ s.current_history * size + x.idx ∧
          s.current_history * size + x.idx < history_size * size) ∧
      ∃ n, strlen (history_size * size)
          (remove_char s.buffer (s.current_history * size) s.pos s.len).mem
          (s.current_history * size + s.pos) = some n ∧
        e = ⟨{ s with
                buffer := (remove_char s.buffer (s.current_history * size) s.pos s.len).mem,
                len := s.len - 1 },
              [Out.write [27, 91, 75]] ++
              (if n > 0 then
                [Out.write (bytes_at (remove_char s.buffer (s.current_history * size)
                    s.pos s.len).mem (s.current_history * size + s.pos) n),
                 Out.left n]
               else []),
              [],
              (remove_char s.buffer (s.current_history * size) s.pos s.len).trace⟩) := by
  unfold case_del at h
  simp only at h
  split at h
  · rename_i hp
    right
    cases hc : checked (history_size * size) (s.current_history * size)
        (remove_char s.buffer (s.current_history * size) s.pos s.len) with
    | none => rw [hc] at h; simp at h
    | some b =>
      rw [hc] at h
      obtain ⟨hb, htr⟩ := checked_eq_some _ _ _ _ hc
      subst hb
      simp only at h
      cases hpl : print_line (history_size * size)
          (remove_char s.buffer (s.current_history * size) s.pos s.len).mem
          (s.current_history * size + s.pos) with
      | none => rw [hpl] at h; simp at h
      | some ol =>
        obtain ⟨o, l⟩ := ol
        rw [hpl] at h
        obtain ⟨n, hn, ho⟩ := print_line_some _ _ _ _ _ hpl
        simp only [Option.some.injEq, print_lit] at h
        refine ⟨hp, htr, n, hn, ?_⟩
        rw [← h, ho]
        simp
  · rename_i hp
    left
    simp only [Option.some.injEq] at h
    exact ⟨by omega, h.symm⟩

theorem case_default_some (size history_size : Int) (s : State) (c : Nat) (e : Step)
    (h : case_default size history_size s c = some e) :
    (size - 1 ≤ s.len ∧ e = Step.skip s) ∨
    (s.len < size - 1 ∧
      (∀ x ∈ (insert_char c s.buffer (s.current_history * size) s.pos s.len).trace,
        0 ≤ s.current_history * size + x.idx ∧
          s.current_history * size + x.idx < history_size * size) ∧
      ∃ n, strlen (history_size * size)
          (insert_char c s.buffer (s.current_history * size) s.pos s.len).mem
          (s.current_history * size + s.pos) = some n ∧
        e = ⟨{ s with
                buffer := (insert_char c s.buffer (s.current_history * size) s.pos s.len).mem,
                pos := s.pos + 1, len := s.len + 1 },
              (if n > 0 then
                [Out.write (bytes_at (insert_char c s.buffer (s.current_history * size)
                    s.pos s.len).mem (s.current_history * size + s.pos) n),
                 Out.left n]
               else []) ++ [Out.right 1],
              [],
              (insert_char c s.buffer (s.current_history * size) s.pos s.len).trace⟩) := by
  unfold case_default at h
  simp only at h
  split at h
  · rename_i hp
    right
    cases hc : checked (history_size * size) (s.current_history * size)
        (insert_char c s.buffer (s.current_history * size) s.pos s.len) with
    | none => rw [hc] at h; simp at h
    | some b =>
      rw [hc] at h
      obtain ⟨hb, htr⟩ := checked_eq_some _ _ _ _ hc
      subst hb
      simp only at h
      cases hpl : print_line (history_size * size)
          (insert_char c s.buffer (s.current_history * size) s.pos s.len).mem
          (s.current_history * size + s.pos) with
      | none => rw [hpl] at h; simp at h
      | some ol =>
        obtain ⟨o, l⟩ := ol
        rw [hpl] at h
        obtain ⟨n, hn, ho⟩ := print_line_some _ _ _ _ _ hpl
        simp only [Option.some.injEq, move_right] at h
        refine ⟨hp, htr, n, hn, ?_⟩
        rw [← h, ho]
  · rename_i hp
    left
    simp only [Option.some.injEq] at h
    exact ⟨by omega, h.symm⟩

/-- Every pass keeps `current_history`, or is a history move by one inside the array. -/
theorem step_index (size history_size : Int) (s : State) (r : Read) (e : Step)
    (h : step size history_size s r = some e) :
    e.st.current_history = s.current_history ∨
    (s.current_history < history_size - 1 ∧ e.st.current_history = s.current_history + 1) ∨
    (0 < s.current_history ∧ e.st.current_history = s.current_history - 1) := by
  unfold step at h
  split at h
  · split at h
    · simp only [Option.some.injEq] at h; rw [← h]; exact Or.inl rfl
    · split at h
      · rcases case_backspace_some _ _ _ _ h with ⟨_, he⟩ | ⟨_, _, n, _, he⟩ <;>
          (rw [he]; exact Or.inl rfl)
      · split at h
        · split at h
          · unfold case_arrow at h
            split at h
            · split at h
              · rename_i hlt
                obtain ⟨n, _, he⟩ := history_go_some _ _ _ _ _ h
                rw [he]; exact Or.inr (Or.inl ⟨hlt, rfl⟩)
              · simp only [Option.some.injEq] at h; rw [← h]; exact Or.inl rfl
            · split at h
              · split at h
                · rename_i hlt
                  obtain ⟨n, _, he⟩ := history_go_some _ _ _ _ _ h
                  rw [he]; exact Or.inr (Or.inr ⟨by omega, rfl⟩)
                · simp only [Option.some.injEq] at h; rw [← h]; exact Or.inl rfl
              · split at h
                · split at h <;>
                    (simp only [Option.some.injEq] at h; rw [← h]; exact Or.inl rfl)
                · split at h
                  · split at h <;>
                      (simp only [Option.some.injEq] at h; rw [← h]; exact Or.inl rfl)
                  · split at h
                    · simp only [Option.some.injEq] at h; rw [← h]; exact Or.inl rfl
                    · split at h
                      · simp only [Option.some.injEq] at h; rw [← h]; exact Or.inl rfl
                      · split at h
                        · rcases case_del_some _ _ _ _ h with ⟨_, he⟩ | ⟨_, _, n, _, he⟩ <;>
                            (rw [he]; exact Or.inl rfl)
                        · simp only [Option.some.injEq] at h; rw [← h]; exact Or.inl rfl
          · simp only [Option.some.injEq] at h; rw [← h]; exact Or.inl rfl
        · rcases case_default_some _ _ _ _ _ h with ⟨_, he⟩ | ⟨_, _, n, _, he⟩ <;>
            (rw [he]; exact Or.inl rfl)
  · simp only [Option.some.injEq] at h; rw [← h]; exact Or.inl rfl

theorem loop_invariant (size history_size : Int) (P : State → Prop)
    (hP : ∀ s r e, P s → step size history_size s r = some e → P e.st) (reads : List Read) :
    ∀ ss ss' : Session, loop size history_size reads ss = some ss' → P ss.st → P ss'.st := by
  induction reads with
  | nil =>
    intro ss ss' h hp
    simp only [loop, Option.some.injEq] at h
    rw [← h]; exact hp
  | cons r rs ih =>
    intro ss ss' h hp
    rw [loop] at h
    split at h
    · cases hs : step size history_size ss.st r with
      | none => rw [hs] at h; simp at h
      | some e =>
        rw [hs] at h
        exact ih _ _ h (hP _ _ _ hp hs)
    · simp only [Option.some.injEq] at h
      rw [← h]; exact hp

/-! ## History moves -/


theorem history_go_of_strlen (size history_size : Int) (s : State) (ch n : Int)
    (h : strlen (history_size * size) s.buffer (ch * size) = some n) :
    history_go size history_size s ch =
      some ⟨{ s with current_history := ch, len := n, pos := max s.pos n },
            [Out.left s.pos, Out.write (bytes_at s.buffer (ch * size) n),
             Out.right (n - max s.pos n)], [], []⟩ := by
  unfold history_go
  rw [h]
  simp [move_left, move_right]

theorem step_older (size history_size : Int) (s : State) (r : Read) (hr : r.csi 65)
    (h : s.current_history < history_size - 1) :
    step size history_size s r = history_go size history_size s (s.current_history + 1) := by
  obtain ⟨h1, h2, h3, h4⟩ := hr
  unfold step case_arrow
  simp only [ge_iff_le, h1, if_true, h2, h3, h4, h]
  simp

theorem step_older_top (size history_size : Int) (s : State) (r : Read) (hr : r.csi 65)
    (h : history_size - 1 ≤ s.current_history) :
    step size history_size s r = some (Step.skip s) := by
  obtain ⟨h1, h2, h3, h4⟩ := hr
  have h' : ¬ (s.current_history < history_size - 1) := by omega
  unfold step case_arrow
  simp only [ge_iff_le, h1, if_true, h2, h3, h4, h']
  simp

theorem step_newer (size history_size : Int) (s : State) (r : Read) (hr : r.csi 66)
    (h : 0 < s.current_history) :
    step size history_size s r = history_go size history_size s (s.current_history - 1) := by
  obtain ⟨h1, h2, h3, h4⟩ := hr
  unfold step case_arrow
  simp only [ge_iff_le, h1, if_true, h2, h3, h4, gt_iff_lt, h]
  simp

theorem step_newer_bottom (size history_size : Int) (s : State) (r : Read) (hr : r.csi 66)
    (h : s.current_history ≤ 0) :
    step size history_size s r = some (Step.skip s) := by
  obtain ⟨h1, h2, h3, h4⟩ := hr
  have h' : ¬ (s.current_history > 0) := by omega
  unfold step case_arrow
  simp only [ge_iff_le, h1, if_true, h2, h3, h4, h']
  simp

theorem csi_csi (x : Nat) : (csi x).csi x := by simp [Read.csi, csi]

theorem key_printable (c : Nat) (h : c ≠ 13 ∧ c ≠ 10 ∧ c ≠ 8 ∧ c ≠ 127 ∧ c ≠ 27) :
    (key c).printable := by
  simp [Read.printable, key, h]

theorem history_range_aux (size history_size : Int) (buffer : Mem) (i : Int)
    (hi0 : 0 ≤ i) (hi1 : i < history_size) (reads : List Read) (ss : Session)
    (h : read_command size history_size buffer i reads = some ss) :
    0 ≤ ss.st.current_history ∧ ss.st.current_history < history_size := by
  unfold read_command at h
  split at h
  · refine loop_invariant size history_size
      (fun s => 0 ≤ s.current_history ∧ s.current_history < history_size) ?_ reads _ ss h
      ⟨hi0, hi1⟩
    intro s r e hp hs
    have := step_index size history_size s r e hs
    omega
  · simp at h

/-! ## Runs of the loop -/


theorem loop_rest (size history_size : Int) (ys : List Read) (ss : Session) (x : List Read) :
    loop size history_size ys { ss with rest := x } = loop size history_size ys ss := by
  cases ys with
  | nil => simp [loop]
  | cons r rs => simp [loop]

theorem loop_append (size history_size : Int) (xs ys : List Read) :
    ∀ ss ss' : Session, loop size history_size xs ss = some ss' → ss'.st.on_loop = true →
      loop size history_size (xs ++ ys) ss = loop size history_size ys ss' := by
  induction xs with
  | nil =>
    intro ss ss' h _
    simp only [loop, Option.some.injEq] at h
    rw [← h, List.nil_append]
    exact (loop_rest size history_size ys ss []).symm
  | cons r rs ih =>
    intro ss ss' h hl
    rw [List.cons_append, loop]
    rw [loop] at h
    by_cases ho : ss.st.on_loop = true
    · rw [if_pos ho] at h ⊢
      cases hs : step size history_size ss.st r with
      | none => rw [hs] at h; simp at h
      | some e =>
        rw [hs] at h
        simp only at h ⊢
        have := loop_rest size history_size (rs ++ ys)
          ⟨e.st, ss.out ++ e.out, ss.diag ++ e.diag, rs⟩ (rs ++ ys)
        simp only at this
        rw [this]
        exact ih _ _ h hl
    · rw [if_neg ho] at h
      simp only [Option.some.injEq] at h
      rw [← h] at hl
      exact absurd hl ho

theorem step_printable_full (size history_size : Int) (s : State) (r : Read)
    (hr : r.printable) (hl : size - 1 ≤ s.len) :
    step size history_size s r = some (Step.skip s) := by
  obtain ⟨h1, h2, h3, h4, h5, h6⟩ := hr
  have hl' : ¬ (s.len < size - 1) := by omega
  unfold step case_backspace case_arrow case_del case_default
  simp only [ge_iff_le, h1, if_true, h2, h3, h4, h5, h6, or_self, if_false, hl']

theorem step_commit (size history_size : Int) (s : State) (r : Read) (hr : r.commit) :
    step size history_size s r =
      some ⟨{ s with on_loop := false }, [Out.write [13, 10]], [], []⟩ := by
  obtain ⟨h1, h2⟩ := hr
  unfold step case_backspace case_arrow case_del case_default
  simp only [ge_iff_le, h1, if_true, h2, print_lit]
  simp

/-- Typing at the end of a line whose tail is clear. -/
theorem step_type_end (size history_size : Int) (s : State) (r : Read) (hr : r.printable)
    (hc0 : 0 ≤ s.current_history) (hc1 : s.current_history < history_size)
    (hp0 : 0 ≤ s.pos) (hpl : s.pos = s.len) (hl : s.len < size - 1)
    (hz : ∀ j, s.len ≤ j → j < size → s.buffer (s.current_history * size + j) = 0) :
    ∃ e, step size history_size s r = some e ∧
      e.st.current_history = s.current_history ∧ e.st.on_loop = s.on_loop ∧
      e.st.pos = s.pos + 1 ∧ e.st.len = s.len + 1 ∧
      (∀ a, e.st.buffer a =
        if a = s.current_history * size + s.len then r.inbuf 0 else s.buffer a) ∧
      (∀ x ∈ e.trace, 0 ≤ x.idx ∧ x.idx < size) := by
  obtain ⟨n, _, _, _, hstep⟩ := step_printable size history_size s r hr hc0 hc1 hp0
    (by omega) hl (hz s.len (le_refl _) (by omega))
  refine ⟨_, hstep, rfl, rfl, rfl, rfl, ?_, ?_⟩
  · intro a
    show (insert_char _ _ _ _ _).mem a = _
    rw [insert_char_mem, hpl]
    by_cases h1 : a = s.current_history * size + s.len
    · rw [if_pos h1, if_pos h1]
    · rw [if_neg h1, if_neg h1]
      by_cases h2 : s.current_history * size + s.len < a ∧
          a ≤ s.current_history * size + s.len + 1
      · rw [if_pos h2]
        have e1 : a - 1 = s.current_history * size + s.len := by omega
        have e2 : a = s.current_history * size + (s.len + 1) := by omega
        rw [e1, e2, hz s.len (le_refl _) (by omega), hz (s.len + 1) (by omega) (by omega)]
      · rw [if_neg h2]
  · intro x hx
    have := insert_char_trace (r.inbuf 0) s.buffer (s.current_history * size) s.pos s.len x hx
    omega

theorem loop_type (size history_size : Int) (reads : List Read) :
    ∀ (ss : Session) (k : Int), 0 ≤ ss.st.current_history →
      ss.st.current_history < history_size → ss.st.on_loop = true →
      ss.st.pos = k → ss.st.len = k → 0 ≤ k → k + reads.length ≤ size - 1 →
      (∀ j, k ≤ j → j < size → ss.st.buffer (ss.st.current_history * size + j) = 0) →
      (∀ r ∈ reads, r.printable) →
      ∃ ss', loop size history_size reads ss = some ss' ∧
        ss'.st.on_loop = true ∧ ss'.st.current_history = ss.st.current_history ∧
        ss'.st.pos = k + reads.length ∧ ss'.st.len = k + reads.length ∧
        bytes_at ss'.st.buffer (ss.st.current_history * size + k) reads.length =
          reads.map (fun r => r.inbuf 0) ∧
        (∀ a, ¬ (ss.st.current_history * size + k ≤ a ∧
                  a < ss.st.current_history * size + k + reads.length) →
          ss'.st.buffer a = ss.st.buffer a) := by
  induction reads with
  | nil =>
    intro ss k _ _ ho hp hl _ _ _ _
    refine ⟨{ ss with rest := [] }, by simp [loop], ho, rfl, by simpa using hp,
      by simpa using hl, by simp [bytes_at], fun a _ => rfl⟩
  | cons r rs ih =>
    intro ss k hc0 hc1 ho hp hl hk hn hz hr
    have hlen : ((r :: rs).length : Int) = (rs.length : Int) + 1 := by simp
    obtain ⟨e, he, e1, e2, e3, e4, e5, _⟩ := step_type_end size history_size ss.st r
      (hr r (List.mem_cons_self _ _)) hc0 hc1 (by omega) (by omega) (by omega)
      (by rw [hl]; exact hz)
    obtain ⟨ss', h1, h2, h3, h4, h5, h6, h7⟩ := ih
      ⟨e.st, ss.out ++ e.out, ss.diag ++ e.diag, rs⟩ (k + 1)
      (by simp only [e1]; exact hc0) (by simp only [e1]; exact hc1)
      (by simp only [e2]; exact ho) (by simp only [e3]; omega) (by simp only [e4]; omega)
      (by omega) (by omega)
      (by
        intro j hj1 hj2
        simp only [e1]
        rw [e5, if_neg (by omega)]
        exact hz j (by omega) hj2)
      (fun r' hr' => hr r' (List.mem_cons_of_mem _ hr'))
    simp only [e1] at h3 h6 h7
    refine ⟨ss', ?_, h2, h3, by rw [h4]; omega, by rw [h5]; omega, ?_, ?_⟩
    · simp only [loop, ho, if_true, he, h1]
    · have hb := bytes_at_append ss'.st.buffer (ss.st.current_history * size + k) 1 rs.length
        (by omega) (by omega)
      rw [hlen, add_comm (rs.length : Int) 1, hb, bytes_at_one]
      have e6 : ss.st.current_history * size + k + 1 = ss.st.current_history * size + (k + 1) := by
        omega
      rw [e6, h6, h7 _ (by omega), e5, if_pos (by omega)]
      simp
    · intro a ha
      rw [h7 a (by omega), e5, if_neg (by omega)]

theorem read_command_eq (size history_size : Int) (buffer : Mem) (i : Int) (input : List Read)
    (hi0 : 0 ≤ i) (hi1 : i < history_size) (hs : 0 ≤ size) :
    read_command size history_size buffer i input =
      loop size history_size input ⟨init size buffer i, [], [], input⟩ := by
  unfold read_command
  rw [if_pos (slot_bounds size history_size i hi0 hi1 hs)]

theorem init_clear (size : Int) (buffer : Mem) (i j : Int) (h0 : 0 ≤ j) (h1 : j < size) :
    (init size buffer i).buffer (i * size + j) = 0 := by
  show memset0 buffer (i * size) size (i * size + j) = 0
  unfold memset0
  rw [if_pos (by omega)]

/-! ## Editing with the cursor past the end of the line -/


theorem loop_cons (size history_size : Int) (r : Read) (rs : List Read) (ss : Session)
    (e : Step) (ho : ss.st.on_loop = true) (he : step size history_size ss.st r = some e) :
    loop size history_size (r :: rs) ss =
      loop size history_size rs ⟨e.st, ss.out ++ e.out, ss.diag ++ e.diag, rs⟩ := by
  rw [loop, if_pos ho, he]

/-- Backspace with the cursor past the end of the line. -/
theorem step_backspace_past (size history_size : Int) (s : State) (r : Read)
    (hr : r.backspace) (hp0 : 0 < s.pos) (hpl : s.len < s.pos)
    (ha0 : 0 ≤ s.current_history * size + (s.pos - 1))
    (ha1 : s.current_history * size + (s.pos - 1) < history_size * size) :
    ∃ e, step size history_size s r = some e ∧
      e.st.current_history = s.current_history ∧ e.st.on_loop = s.on_loop ∧
      e.st.pos = s.pos - 1 ∧ e.st.len = s.len - 1 ∧
      (∀ a, e.st.buffer a =
        if a = s.current_history * size + (s.pos - 1) then 0 else s.buffer a) ∧
      e.trace = [Access.store (s.pos - 1)] := by
  obtain ⟨h1, h2⟩ := hr
  have hmem : ∀ a, (remove_char s.buffer (s.current_history * size) (s.pos - 1) s.len).mem a =
      if a = s.current_history * size + (s.pos - 1) then 0 else s.buffer a := by
    intro a
    rw [remove_char_mem]
    have e1 : max (s.pos - 1) s.len = s.pos - 1 := by omega
    rw [e1]
    by_cases h : a = s.current_history * size + (s.pos - 1)
    · rw [if_pos h, if_pos h]
    · rw [if_neg h, if_neg h, if_neg (by omega)]
  have htr : (remove_char s.buffer (s.current_history * size) (s.pos - 1) s.len).trace =
      [Access.store (s.pos - 1)] := by
    have e1 : (s.len - (s.pos - 1)).toNat = 0 := by omega
    simp [remove_char, e1, remove_char_loop]
  have hchk := checked_some (history_size * size) (s.current_history * size)
    (remove_char s.buffer (s.current_history * size) (s.pos - 1) s.len) (by
      intro x hx
      rw [htr, List.mem_singleton] at hx
      subst hx
      exact ⟨ha0, ha1⟩)
  have hlen := strlen_found (history_size * size)
    (remove_char s.buffer (s.current_history * size) (s.pos - 1) s.len).mem
    (s.current_history * size + (s.pos - 1)) 0 ha0 (le_refl _) (by omega)
    (by rw [hmem, if_pos (by omega)]) (fun j a b => by omega)
  have hne : ¬ (r.inbuf 0 = 13 ∨ r.inbuf 0 = 10) := by omega
  refine ⟨⟨{ s with
      buffer := (remove_char s.buffer (s.current_history * size) (s.pos - 1) s.len).mem,
      pos := s.pos - 1, len := s.len - 1 }, [Out.left 1, Out.write [27, 91, 75]], [],
      (remove_char s.buffer (s.current_history * size) (s.pos - 1) s.len).trace⟩,
    ?_, rfl, rfl, rfl, rfl, hmem, htr⟩
  unfold step case_backspace
  simp only [ge_iff_le, h1, if_true, h2, hne, if_false, gt_iff_lt, hp0, hchk,
    print_line_of_strlen _ _ _ _ hlen, move_left, print_lit]
  simp

/-- A printable byte with the cursor past the end of the line: the byte is stored at
`pos` although the line ends before it. -/
theorem step_type_past (size history_size : Int) (s : State) (r : Read) (hr : r.printable)
    (hpl : s.len < s.pos) (hl : s.len < size - 1)
    (ha0 : 0 ≤ s.current_history * size + s.pos) (k : Int) (hk : 1 ≤ k)
    (ha1 : s.current_history * size + s.pos + k < history_size * size)
    (hz : s.buffer (s.current_history * size + s.pos + k) = 0) :
    ∃ e, step size history_size s r = some e ∧
      e.st.current_history = s.current_history ∧ e.st.on_loop = s.on_loop ∧
      e.st.pos = s.pos + 1 ∧ e.st.len = s.len + 1 ∧
      (∀ a, e.st.buffer a =
        if a = s.current_history * size + s.pos then r.inbuf 0 else s.buffer a) ∧
      e.trace = [Access.store s.pos] := by
  obtain ⟨h1, h2, h3, h4, h5, h6⟩ := hr
  have hmem : ∀ a, (insert_char (r.inbuf 0) s.buffer (s.current_history * size) s.pos s.len).mem a =
      if a = s.current_history * size + s.pos then r.inbuf 0 else s.buffer a := by
    intro a
    rw [insert_char_mem]
    by_cases h : a = s.current_history * size + s.pos
    · rw [if_pos h, if_pos h]
    · rw [if_neg h, if_neg h, if_neg (by omega)]
  have htr : (insert_char (r.inbuf 0) s.buffer (s.current_history * size) s.pos s.len).trace =
      [Access.store s.pos] := by
    have e1 : (s.len + 1 - s.pos).toNat = 0 := by omega
    simp [insert_char, e1, insert_char_loop]
  have hchk := checked_some (history_size * size) (s.current_history * size)
    (insert_char (r.inbuf 0) s.buffer (s.current_history * size) s.pos s.len) (by
      intro x hx
      rw [htr, List.mem_singleton] at hx
      subst hx
      simp only [Access.idx]
      omega)
  obtain ⟨n, _, _, hlen, _, _⟩ := strlen_exists (history_size * size)
    (insert_char (r.inbuf 0) s.buffer (s.current_history * size) s.pos s.len).mem
    (s.current_history * size + s.pos) k ha0 (by omega) ha1
    (by rw [hmem, if_neg (by omega)]; exact hz)
  refine ⟨⟨{ s with
      buffer := (insert_char (r.inbuf 0) s.buffer (s.current_history * size) s.pos s.len).mem,
      pos := s.pos + 1, len := s.len + 1 },
      (if n > 0 then
        [Out.write (bytes_at (insert_char (r.inbuf 0) s.buffer
            (s.current_history * size) s.pos s.len).mem
            (s.current_history * size + s.pos) n), Out.left n]
       else []) ++ [Out.right 1], [],
      (insert_char (r.inbuf 0) s.buffer (s.current_history * size) s.pos s.len).trace⟩,
    ?_, rfl, rfl, rfl, rfl, hmem, htr⟩
  unfold step case_default
  simp only [ge_iff_le, h1, if_true, h2, h3, h4, h5, h6, or_self, if_false, hl, hchk,
    print_line_of_strlen _ _ _ _ hlen, move_right]


theorem loop_fill (size history_size : Int) (hs : 2 ≤ size) (hh : 2 ≤ history_size) (j : Nat) :
    ∀ (ss : Session) (k : Int), 0 ≤ k → k + j ≤ size → ss.st.on_loop = true →
      ss.st.current_history = 0 → ss.st.pos = k → ss.st.len = k - 1 →
      (∀ a, ss.st.buffer a = if 0 ≤ a ∧ a < k then 97 else if a = size then 120 else 0) →
      ∃ ss', loop size history_size (List.replicate j (key 97)) ss = some ss' ∧
        ss'.st.on_loop = true ∧ ss'.st.current_history = 0 ∧
        ss'.st.pos = k + j ∧ ss'.st.len = k + j - 1 ∧
        (∀ a, ss'.st.buffer a =
          if 0 ≤ a ∧ a < k + j then 97 else if a = size then 120 else 0) := by
  have hHs : 2 * size ≤ history_size * size := mul_le_mul_of_nonneg_right hh (by omega)
  induction j with
  | zero =>
    intro ss k _ _ ho hc hp hl hm
    refine ⟨{ ss with rest := [] }, by simp [loop], ho, hc, by simpa using hp,
      by simpa using hl, by simpa using hm⟩
  | succ j ih =>
    intro ss k hk0 hkj ho hc hp hl hm
    have hkj' : k + (j : Int) + 1 ≤ size := by push_cast at hkj; omega
    obtain ⟨e, he, e1, e2, e3, e4, e5, _⟩ := step_type_past size history_size ss.st (key 97)
      (key_printable 97 (by decide)) (by omega) (by omega) (by rw [hc, hp]; omega)
      (if k + 2 = size then 1 else 2) (by split <;> omega)
      (by rw [hc, hp]; split <;> omega)
      (by
        rw [hc, hp, hm]
        split
        · rw [if_neg (by omega), if_neg (by omega)]
        · rw [if_neg (by omega), if_neg (by omega)])
    obtain ⟨ss', h1, h2, h3, h4, h5, h6⟩ := ih
      ⟨e.st, ss.out ++ e.out, ss.diag ++ e.diag, List.replicate j (key 97)⟩ (k + 1)
      (by omega) (by omega) (by simp only [e2]; exact ho) (by simp only [e1]; exact hc)
      (by simp only [e3]; omega) (by simp only [e4]; omega)
      (by
        intro a
        have hk97 : (key 97).inbuf 0 = 97 := rfl
        show e.st.buffer a = _
        rw [e5 a, hc, hp, hk97, hm a]
        by_cases h : a = 0 * size + k
        · rw [if_pos h, if_pos (show 0 ≤ a ∧ a < k + 1 by omega)]
        · rw [if_neg h]
          by_cases h' : 0 ≤ a ∧ a < k
          · rw [if_pos h', if_pos (show 0 ≤ a ∧ a < k + 1 by omega)]
          · rw [if_neg h', if_neg (show ¬ (0 ≤ a ∧ a < k + 1) by omega)])
    refine ⟨ss', ?_, h2, h3, by rw [h4]; push_cast; omega, by rw [h5]; push_cast; omega, ?_⟩
    · rw [List.replicate_succ, loop_cons size history_size _ _ ss e ho he]
      exact h1
    · intro a
      rw [h6 a]
      have : k + 1 + (j : Int) = k + ((j + 1 : Nat) : Int) := by push_cast; omega
      rw [this]


theorem loop_prepare (size history_size : Int) (hs : 2 ≤ size) (hh : 2 ≤ history_size)
    (rest : List Read) :
    ∃ ss, loop size history_size [csi 65, key 120, csi 66, key 8]
        ⟨init size (fun _ => 0) 0, [], [], rest⟩ = some ss ∧
      ss.st.on_loop = true ∧ ss.st.current_history = 0 ∧ ss.st.pos = 0 ∧ ss.st.len = -1 ∧
      (∀ a, ss.st.buffer a = if a = size then 120 else 0) := by
  have hHs : 2 * size ≤ history_size * size := mul_le_mul_of_nonneg_right hh (by omega)
  have hm0 : ∀ a, (init size (fun _ => 0) 0).buffer a = 0 := by
    intro a
    show memset0 (fun _ => 0) (0 * size) size a = 0
    unfold memset0
    split <;> rfl
  -- ESC [ A: to slot 1, which is empty
  have hlen1 := strlen_found (history_size * size) (init size (fun _ => 0) 0).buffer
    (1 * size) 0 (by omega) (le_refl _) (by omega) (hm0 _) (fun j a b => by omega)
  have he1 := (step_older size history_size (init size (fun _ => 0) 0) (csi 65) (csi_csi 65)
    (show (0 : Int) < history_size - 1 by omega)).trans
    (history_go_of_strlen size history_size _ (0 + 1) 0 (by rw [zero_add]; exact hlen1))
  rw [loop_cons size history_size _ _ _ _ rfl he1]
  -- "x" in slot 1
  obtain ⟨e2, he2, a1, a2, a3, a4, a5, _⟩ := step_type_end size history_size
    { init size (fun _ => 0) 0 with current_history := 0 + 1, len := 0, pos := max 0 0 }
    (key 120) (key_printable 120 (by decide)) (show (0 : Int) ≤ 0 + 1 by decide)
    (show (0 : Int) + 1 < history_size by omega)
    (show (0 : Int) ≤ max 0 0 by decide) rfl (show (0 : Int) < size - 1 by omega)
    (fun j _ _ => hm0 _)
  rw [loop_cons size history_size _ _ _ e2 rfl he2]
  replace a1 : e2.st.current_history = 1 := a1
  replace a2 : e2.st.on_loop = true := a2
  replace a3 : e2.st.pos = 1 := a3
  replace a5 : ∀ a, e2.st.buffer a =
      if a = (0 + 1) * size + 0 then (key 120).inbuf 0
      else (init size (fun _ => 0) 0).buffer a := a5
  have hm2 : ∀ a, e2.st.buffer a = if a = size then 120 else 0 := by
    intro a
    rw [a5 a, hm0 a]
    have : (key 120).inbuf 0 = 120 := rfl
    rw [this]
    by_cases h : a = size
    · rw [if_pos h, if_pos (by omega)]
    · rw [if_neg h, if_neg (by omega)]
  -- ESC [ B: back to slot 0, which is empty, with the cursor kept at 1
  have hlen3 := strlen_found (history_size * size) e2.st.buffer (0 * size) 0 (by omega)
    (le_refl _) (by omega) (by rw [hm2, if_neg (by omega)]) (fun j a b => by omega)
  have he3 := (step_newer size history_size e2.st (csi 66) (csi_csi 66)
    (by rw [a1]; decide)).trans
    (history_go_of_strlen size history_size e2.st (e2.st.current_history - 1) 0
      (by rw [a1]; exact hlen3))
  rw [loop_cons size history_size _ _ _ _ a2 he3]
  -- Backspace with pos = 1 > len = 0
  obtain ⟨e4, he4, b1, b2, b3, b4, b5, _⟩ := step_backspace_past size history_size
    { e2.st with current_history := e2.st.current_history - 1, len := 0,
                 pos := max e2.st.pos 0 }
    (key 8) (by simp [Read.backspace, key])
    (show 0 < max e2.st.pos 0 by rw [a3]; decide)
    (show (0 : Int) < max e2.st.pos 0 by rw [a3]; decide)
    (show 0 ≤ (e2.st.current_history - 1) * size + (max e2.st.pos 0 - 1) by
      rw [a1, a3]; simp)
    (show (e2.st.current_history - 1) * size + (max e2.st.pos 0 - 1) < history_size * size by
      rw [a1, a3]; simp; omega)
  rw [loop_cons size history_size _ _ _ e4 a2 he4]
  replace b1 : e4.st.current_history = e2.st.current_history - 1 := b1
  replace b2 : e4.st.on_loop = e2.st.on_loop := b2
  replace b3 : e4.st.pos = max e2.st.pos 0 - 1 := b3
  replace b4 : e4.st.len = 0 - 1 := b4
  replace b5 : ∀ a, e4.st.buffer a =
      if a = (e2.st.current_history - 1) * size + (max e2.st.pos 0 - 1) then 0
      else e2.st.buffer a := b5
  rw [a1, a3] at b5
  rw [a1] at b1
  rw [a3] at b3
  rw [loop]
  refine ⟨_, rfl, ?_, ?_, ?_, ?_, ?_⟩
  · show e4.st.on_loop = true
    rw [b2]; exact a2
  · show e4.st.current_history = 0
    rw [b1]; decide
  · show e4.st.pos = 0
    rw [b3]; decide
  · show e4.st.len = -1
    rw [b4]; decide
  · intro a
    show e4.st.buffer a = _
    rw [b5 a, hm2 a]
    by_cases h : a = size
    · rw [if_pos h, if_neg (by simp; omega)]
    · rw [if_neg h]
      split <;> rfl

/-! ## The cases of the switch -/


theorem step_no_data (size history_size : Int) (s : State) (r : Read) (h : r.readed < 1) :
    step size history_size s r = some (Step.skip s) := by
  have h' : ¬ (r.readed ≥ 1) := by omega
  unfold step
  rw [if_neg h']

theorem step_esc_other (size history_size : Int) (s : State) (r : Read) (h1 : r.readed ≥ 1)
    (h2 : r.inbuf 0 = 27) (h3 : r.inbuf 1 ≠ 91) :
    step size history_size s r = some (Step.skip s) := by
  unfold step
  simp only [h1, if_true, h2, h3]
  simp

theorem step_esc_bracket (size history_size : Int) (s : State) (r : Read) (h1 : r.readed ≥ 1)
    (h2 : r.inbuf 0 = 27) (h3 : r.inbuf 1 = 91) :
    step size history_size s r = case_arrow size history_size s r := by
  unfold step
  simp only [h1, if_true, h2, h3]
  simp

theorem step_default (size history_size : Int) (s : State) (r : Read) (hr : r.printable) :
    step size history_size s r = case_default size history_size s (r.inbuf 0) := by
  obtain ⟨h1, h2, h3, h4, h5, h6⟩ := hr
  unfold step
  simp only [h1, if_true, h2, h3, h4, h5, h6, or_self, if_false]

theorem step_bs (size history_size : Int) (s : State) (r : Read) (hr : r.backspace) :
    step size history_size s r = case_backspace size history_size s := by
  obtain ⟨h1, h2⟩ := hr
  have hne : ¬ (r.inbuf 0 = 13 ∨ r.inbuf 0 = 10) := by omega
  unfold step
  simp only [h1, if_true, h2, hne, if_false]

theorem case_arrow_unknown (size history_size : Int) (s : State) (r : Read)
    (h : r.inbuf 2 ≠ 65 ∧ r.inbuf 2 ≠ 66 ∧ r.inbuf 2 ≠ 67 ∧ r.inbuf 2 ≠ 68 ∧ r.inbuf 2 ≠ 72 ∧
      r.inbuf 2 ≠ 70 ∧ r.inbuf 2 ≠ 51) :
    case_arrow size history_size s r =
      some ⟨s, [], [(List.range r.readed.toNat).map r.inbuf], []⟩ := by
  obtain ⟨h1, h2, h3, h4, h5, h6, h7⟩ := h
  unfold case_arrow
  simp only [h1, h2, h3, h4, h5, h6, h7, if_false]

/-- Every read is a commit, a backspace, an escape or a printable byte, or brought no byte. -/
theorem read_cases (r : Read) :
    r.readed < 1 ∨ r.commit ∨ r.backspace ∨ (r.readed ≥ 1 ∧ r.inbuf 0 = 27) ∨ r.printable := by
  unfold Read.commit Read.backspace Read.printable
  by_cases h : r.readed ≥ 1
  · by_cases h13 : r.inbuf 0 = 13
    · exact Or.inr (Or.inl ⟨h, Or.inl h13⟩)
    · by_cases h10 : r.inbuf 0 = 10
      · exact Or.inr (Or.inl ⟨h, Or.inr h10⟩)
      · by_cases h8 : r.inbuf 0 = 8
        · exact Or.inr (Or.inr (Or.inl ⟨h, Or.inl h8⟩))
        · by_cases h127 : r.inbuf 0 = 127
          · exact Or.inr (Or.inr (Or.inl ⟨h, Or.inr h127⟩))
          · by_cases h27 : r.inbuf 0 = 27
            · exact Or.inr (Or.inr (Or.inr (Or.inl ⟨h, h27⟩)))
            · exact Or.inr (Or.inr (Or.inr (Or.inr ⟨h, h13, h10, h8, h127, h27⟩)))
  · exact Or.inl (by omega)


theorem step_right (size history_size : Int) (s : State) (r : Read) (hr : r.csi 67) :
    step size history_size s r =
      if s.pos < s.len then some ⟨{ s with pos := s.pos + 1 }, [Out.right 1], [], []⟩
      else some (Step.skip s) := by
  obtain ⟨h1, h2, h3, h4⟩ := hr
  unfold step case_arrow
  simp only [h1, if_true, h2, h3, h4, move_right]
  simp

theorem step_left (size history_size : Int) (s : State) (r : Read) (hr : r.csi 68) :
    step size history_size s r =
      if s.pos > 0 then some ⟨{ s with pos := s.pos - 1 }, [Out.left 1], [], []⟩
      else some (Step.skip s) := by
  obtain ⟨h1, h2, h3, h4⟩ := hr
  unfold step case_arrow
  simp only [h1, if_true, h2, h3, h4, move_left]
  simp

theorem step_home (size history_size : Int) (s : State) (r : Read) (hr : r.csi 72) :
    step size history_size s r = some ⟨{ s with pos := 0 }, [Out.left s.pos], [], []⟩ := by
  obtain ⟨h1, h2, h3, h4⟩ := hr
  unfold step case_arrow
  simp only [h1, if_true, h2, h3, h4, move_left]
  simp

theorem step_end (size history_size : Int) (s : State) (r : Read) (hr : r.csi 70) :
    step size history_size s r =
      some ⟨{ s with pos := s.len }, [Out.right (s.len - s.pos)], [], []⟩ := by
  obtain ⟨h1, h2, h3, h4⟩ := hr
  unfold step case_arrow
  simp only [h1, if_true, h2, h3, h4, move_right]
  simp

theorem step_unknown (size history_size : Int) (s : State) (r : Read) (h1 : r.readed ≥ 1)
    (h2 : r.inbuf 0 = 27) (h3 : r.inbuf 1 = 91)
    (h : r.inbuf 2 ≠ 65 ∧ r.inbuf 2 ≠ 66 ∧ r.inbuf 2 ≠ 67 ∧ r.inbuf 2 ≠ 68 ∧ r.inbuf 2 ≠ 72 ∧
      r.inbuf 2 ≠ 70 ∧ r.inbuf 2 ≠ 51) :
    step size history_size s r =
      some ⟨s, [], [(List.range r.readed.toNat).map r.inbuf], []⟩ := by
  rw [step_esc_bracket size history_size s r h1 h2 h3]
  exact case_arrow_unknown size history_size s r h

theorem tidy_insert (size : Int) (s : State) (c : Nat) (hc : c ≠ 0) (ht : s.tidy size)
    (hl : s.len < size - 1) :
    State.tidy size { s with
      buffer := (insert_char c s.buffer (s.current_history * size) s.pos s.len).mem,
      pos := s.pos + 1, len := s.len + 1 } := by
  obtain ⟨h0, h1, h2, h3, h4⟩ := ht
  refine ⟨?_, ?_, ?_, ?_, ?_⟩
  · show 0 ≤ s.pos + 1
    omega
  · show s.pos + 1 ≤ s.len + 1
    omega
  · show s.len + 1 ≤ size - 1
    omega
  · intro j hj0 hj1
    show (insert_char c s.buffer (s.current_history * size) s.pos s.len).mem
      (s.current_history * size + j) ≠ 0
    replace hj1 : j < s.len + 1 := hj1
    rw [insert_char_mem]
    by_cases e1 : s.current_history * size + j = s.current_history * size + s.pos
    · rw [if_pos e1]; exact hc
    · rw [if_neg e1]
      by_cases e2 : s.current_history * size + s.pos < s.current_history * size + j ∧
          s.current_history * size + j ≤ s.current_history * size + s.len + 1
      · rw [if_pos e2]
        have e3 : s.current_history * size + j - 1 = s.current_history * size + (j - 1) := by
          omega
        rw [e3]
        exact h3 (j - 1) (by omega) (by omega)
      · rw [if_neg e2]
        exact h3 j hj0 (by omega)
  · intro j hj0 hj1
    show (insert_char c s.buffer (s.current_history * size) s.pos s.len).mem
      (s.current_history * size + j) = 0
    replace hj0 : s.len + 1 ≤ j := hj0
    rw [insert_char_mem, if_neg (show ¬ (s.current_history * size + j =
      s.current_history * size + s.pos) by omega)]
    by_cases e2 : s.current_history * size + s.pos < s.current_history * size + j ∧
        s.current_history * size + j ≤ s.current_history * size + s.len + 1
    · rw [if_pos e2]
      have e3 : s.current_history * size + j - 1 = s.current_history * size + s.len := by
        omega
      rw [e3]
      exact h4 s.len (le_refl _) (by omega)
    · rw [if_neg e2]
      exact h4 j (by omega) hj1

theorem tidy_remove (size : Int) (s : State) (p : Int) (ht : s.tidy size) (hp0 : 0 ≤ p)
    (hp1 : p < s.len) :
    State.tidy size { s with
      buffer := (remove_char s.buffer (s.current_history * size) p s.len).mem,
      pos := p, len := s.len - 1 } := by
  obtain ⟨h0, h1, h2, h3, h4⟩ := ht
  have hmax : max p s.len = s.len := by omega
  refine ⟨hp0, ?_, ?_, ?_, ?_⟩
  · show p ≤ s.len - 1
    omega
  · show s.len - 1 ≤ size - 1
    omega
  · intro j hj0 hj1
    show (remove_char s.buffer (s.current_history * size) p s.len).mem
      (s.current_history * size + j) ≠ 0
    replace hj1 : j < s.len - 1 := hj1
    rw [remove_char_mem, hmax, if_neg (show ¬ (s.current_history * size + j =
      s.current_history * size + s.len) by omega)]
    by_cases e2 : s.current_history * size + p ≤ s.current_history * size + j ∧
        s.current_history * size + j < s.current_history * size + s.len
    · rw [if_pos e2]
      have e3 : s.current_history * size + j + 1 = s.current_history * size + (j + 1) := by
        omega
      rw [e3]
      exact h3 (j + 1) (by omega) (by omega)
    · rw [if_neg e2]
      exact h3 j hj0 (by omega)
  · intro j hj0 hj1
    show (remove_char s.buffer (s.current_history * size) p s.len).mem
      (s.current_history * size + j) = 0
    replace hj0 : s.len - 1 ≤ j := hj0
    rw [remove_char_mem, hmax]
    by_cases e1 : s.current_history * size + j = s.current_history * size + s.len
    · rw [if_pos e1]
    · rw [if_neg e1]
      by_cases e2 : s.current_history * size + p ≤ s.current_history * size + j ∧
          s.current_history * size + j < s.current_history * size + s.len
      · rw [if_pos e2]
        have e3 : s.current_history * size + j + 1 = s.current_history * size + s.len := by
          omega
        rw [e3]
        exact h4 s.len (le_refl _) (by omega)
      · rw [if_neg e2]
        exact h4 j (by omega) hj1


theorem csi_cases (r : Read) (h1 : r.readed ≥ 1) (h2 : r.inbuf 0 = 27) :
    r.inbuf 1 ≠ 91 ∨ r.csi 65 ∨ r.csi 66 ∨ r.csi 67 ∨ r.csi 68 ∨ r.csi 72 ∨ r.csi 70 ∨
      r.csi 51 ∨
      (r.inbuf 1 = 91 ∧ r.inbuf 2 ≠ 65 ∧ r.inbuf 2 ≠ 66 ∧ r.inbuf 2 ≠ 67 ∧ r.inbuf 2 ≠ 68 ∧
        r.inbuf 2 ≠ 72 ∧ r.inbuf 2 ≠ 70 ∧ r.inbuf 2 ≠ 51) := by
  unfold Read.csi
  by_cases h : r.inbuf 1 = 91
  · by_cases a : r.inbuf 2 = 65
    · exact Or.inr (Or.inl ⟨h1, h2, h, a⟩)
    · by_cases b : r.inbuf 2 = 66
      · exact Or.inr (Or.inr (Or.inl ⟨h1, h2, h, b⟩))
      · by_cases c : r.inbuf 2 = 67
        · exact Or.inr (Or.inr (Or.inr (Or.inl ⟨h1, h2, h, c⟩)))
        · by_cases d : r.inbuf 2 = 68
          · exact Or.inr (Or.inr (Or.inr (Or.inr (Or.inl ⟨h1, h2, h, d⟩))))
          · by_cases e : r.inbuf 2 = 72
            · exact Or.inr (Or.inr (Or.inr (Or.inr (Or.inr (Or.inl ⟨h1, h2, h, e⟩)))))
            · by_cases f : r.inbuf 2 = 70
              · exact Or.inr (Or.inr (Or.inr (Or.inr (Or.inr (Or.inr (Or.inl ⟨h1, h2, h, f⟩))))))
              · by_cases g : r.inbuf 2 = 51
                · exact Or.inr (Or.inr (Or.inr (Or.inr (Or.inr (Or.inr (Or.inr
                    (Or.inl ⟨h1, h2, h, g⟩)))))))
                · exact Or.inr (Or.inr (Or.inr (Or.inr (Or.inr (Or.inr (Or.inr
                    (Or.inr ⟨h, a, b, c, d, e, f, g⟩)))))))
  · exact Or.inl h

/-- A pass on a well-formed line with a read that is no history move and no NUL byte:
it is defined, keeps the slot, keeps the line well formed, and `insert_char` /
`remove_char` index the slot inside `[0, size - 1]`. -/
theorem step_tidy (size history_size : Int) (s : State) (r : Read)
    (hc0 : 0 ≤ s.current_history) (hc1 : s.current_history < history_size)
    (ht : s.tidy size) (hr : r.plain) :
    ∃ e, step size history_size s r = some e ∧
      e.st.current_history = s.current_history ∧ e.st.tidy size ∧
      ∀ x ∈ e.trace, 0 ≤ x.idx ∧ x.idx ≤ size - 1 := by
  have ht' := ht
  obtain ⟨t0, t1, t2, t3, t4⟩ := ht'
  obtain ⟨p1, p2, p3⟩ := hr
  have hnul : s.buffer (s.current_history * size + s.len) = 0 := t4 s.len (le_refl _) (by omega)
  have hskip : ∃ e, some (Step.skip s) = some e ∧
      e.st.current_history = s.current_history ∧ e.st.tidy size ∧
      ∀ x ∈ e.trace, 0 ≤ x.idx ∧ x.idx ≤ size - 1 :=
    ⟨_, rfl, rfl, ht, fun x hx => by simp [Step.skip] at hx⟩
  rcases read_cases r with h | h | h | ⟨h1, h2⟩ | h
  · rw [step_no_data size history_size s r h]; exact hskip
  · rw [step_commit size history_size s r h]
    exact ⟨_, rfl, rfl, ht, fun x hx => by simp at hx⟩
  · by_cases hp : 0 < s.pos
    · obtain ⟨n, _, _, _, hstep⟩ := step_backspace size history_size s r h hc0 hc1 hp t1 t2 hnul
      refine ⟨_, hstep, rfl, tidy_remove size s (s.pos - 1) ht (by omega) (by omega), ?_⟩
      intro x hx
      have := remove_char_trace s.buffer (s.current_history * size) (s.pos - 1) s.len x hx
      omega
    · rw [step_backspace_home size history_size s r h (by omega)]; exact hskip
  · rcases csi_cases r h1 h2 with c | c | c | c | c | c | c | c | c
    · rw [step_esc_other size history_size s r h1 h2 c]; exact hskip
    · exact absurd c p1
    · exact absurd c p2
    · rw [step_right size history_size s r c]
      split
      · exact ⟨_, rfl, rfl, ⟨by show 0 ≤ s.pos + 1; omega, by show s.pos + 1 ≤ s.len; omega,
          t2, t3, t4⟩, fun x hx => by simp at hx⟩
      · exact hskip
    · rw [step_left size history_size s r c]
      split
      · exact ⟨_, rfl, rfl, ⟨by show 0 ≤ s.pos - 1; omega, by show s.pos - 1 ≤ s.len; omega,
          t2, t3, t4⟩, fun x hx => by simp at hx⟩
      · exact hskip
    · rw [step_home size history_size s r c]
      exact ⟨_, rfl, rfl, ⟨le_refl _, by show 0 ≤ s.len; omega, t2, t3, t4⟩,
        fun x hx => by simp at hx⟩
    · rw [step_end size history_size s r c]
      exact ⟨_, rfl, rfl, ⟨by show 0 ≤ s.len; omega, le_refl _, t2, t3, t4⟩,
        fun x hx => by simp at hx⟩
    · by_cases hp : s.pos < s.len
      · obtain ⟨n, _, _, _, hstep⟩ := step_delete size history_size s r c hc0 hc1 t0 hp t2 hnul
        refine ⟨_, hstep, rfl, tidy_remove size s s.pos ht t0 hp, ?_⟩
        intro x hx
        have := remove_char_trace s.buffer (s.current_history * size) s.pos s.len x hx
        omega
      · rw [step_delete_end size history_size s r c (by omega)]; exact hskip
    · rw [step_unknown size history_size s r h1 h2 c.1 c.2]
      exact ⟨_, rfl, rfl, ht, fun x hx => by simp at hx⟩
  · by_cases hl : s.len < size - 1
    · obtain ⟨n, _, _, _, hstep⟩ := step_printable size history_size s r h hc0 hc1 t0 t1 hl hnul
      refine ⟨_, hstep, rfl, tidy_insert size s (r.inbuf 0) (p3 h.1) ht hl, ?_⟩
      intro x hx
      have := insert_char_trace (r.inbuf 0) s.buffer (s.current_history * size) s.pos s.len x hx
      omega
    · rw [step_printable_full size history_size s r h (by omega)]; exact hskip

theorem init_tidy (size : Int) (buffer : Mem) (i : Int) (hs : 1 ≤ size) :
    (init size buffer i).tidy size := by
  refine ⟨le_refl _, le_refl _, ?_, ?_, ?_⟩
  · show (0 : Int) ≤ size - 1
    omega
  · intro j hj0 hj1
    replace hj1 : j < 0 := hj1
    omega
  · intro j hj0 hj1
    exact init_clear size buffer i j hj0 hj1

theorem loop_tidy (size history_size : Int) (reads : List Read) :
    ∀ ss : Session, (∀ r ∈ reads, r.plain) → 0 ≤ ss.st.current_history →
      ss.st.current_history < history_size → ss.st.tidy size →
      ∃ ss', loop size history_size reads ss = some ss' ∧
        ss'.st.current_history = ss.st.current_history ∧ ss'.st.tidy size := by
  induction reads with
  | nil =>
    intro ss _ _ _ ht
    exact ⟨{ ss with rest := [] }, by rw [loop], rfl, ht⟩
  | cons r rs ih =>
    intro ss hr hc0 hc1 ht
    rw [loop]
    by_cases ho : ss.st.on_loop = true
    · rw [if_pos ho]
      obtain ⟨e, he, e1, e2, _⟩ := step_tidy size history_size ss.st r hc0 hc1 ht
        (hr r (List.mem_cons_self _ _))
      rw [he]
      obtain ⟨ss', h1, h2, h3⟩ := ih ⟨e.st, ss.out ++ e.out, ss.diag ++ e.diag, rs⟩
        (fun r' hr' => hr r' (List.mem_cons_of_mem _ hr'))
        (by show 0 ≤ e.st.current_history; rw [e1]; exact hc0)
        (by show e.st.current_history < history_size; rw [e1]; exact hc1) e2
      exact ⟨ss', h1, h2.trans e1, h3⟩
    · rw [if_neg ho]
      exact ⟨{ ss with rest := r :: rs }, rfl, rfl, ht⟩


theorem insert_remove_mem (c : Nat) (m : Mem) (buffer pos len : Int) (h0 : pos ≤ len)
    (hz : m (buffer + (len + 1)) = 0) (a : Int) :
    (remove_char (insert_char c m buffer pos len).mem buffer pos (len + 1)).mem a = m a := by
  rw [remove_char_mem]
  have hmax : max pos (len + 1) = len + 1 := by omega
  rw [hmax]
  by_cases e1 : a = buffer + (len + 1)
  · rw [if_pos e1, e1, hz]
  · rw [if_neg e1]
    by_cases e2 : buffer + pos ≤ a ∧ a < buffer + (len + 1)
    · rw [if_pos e2, insert_char_mem, if_neg (show ¬ (a + 1 = buffer + pos) by omega),
        if_pos (show buffer + pos < a + 1 ∧ a + 1 ≤ buffer + len + 1 by omega)]
      congr 1; omega
    · rw [if_neg e2, insert_char_mem, if_neg (show ¬ (a = buffer + pos) by omega),
        if_neg (show ¬ (buffer + pos < a ∧ a ≤ buffer + len + 1) by omega)]


theorem fmt_d_zero : fmt_d 0 = [48] := by decide

theorem fmt_d_neg (n : Int) (h : n < 0) :
    fmt_d n = 45 :: (Nat.toDigits 10 n.natAbs).map Char.toNat := by
  unfold fmt_d
  rw [if_pos h]

/-- A history read that moves the index is the redraw of `history_go`. -/
theorem step_history_moved (size history_size : Int) (s : State) (r : Read) (e : Step)
    (hr : r.csi 65 ∨ r.csi 66) (hs : step size history_size s r = some e)
    (hch : e.st.current_history ≠ s.current_history) :
    ∃ ch n, strlen (history_size * size) s.buffer (ch * size) = some n ∧
      e = ⟨{ s with current_history := ch, len := n, pos := max s.pos n },
           [Out.left s.pos, Out.write (bytes_at s.buffer (ch * size) n),
            Out.right (n - max s.pos n)], [], []⟩ := by
  rcases hr with hr | hr
  · by_cases h : s.current_history < history_size - 1
    · rw [step_older size history_size s r hr h] at hs
      obtain ⟨n, h1, h2⟩ := history_go_some _ _ _ _ _ hs
      exact ⟨_, n, h1, h2⟩
    · rw [step_older_top size history_size s r hr (by omega)] at hs
      simp only [Option.some.injEq] at hs
      rw [← hs] at hch
      exact absurd rfl hch
  · by_cases h : 0 < s.current_history
    · rw [step_newer size history_size s r hr h] at hs
      obtain ⟨n, h1, h2⟩ := history_go_some _ _ _ _ _ hs
      exact ⟨_, n, h1, h2⟩
    · rw [step_newer_bottom size history_size s r hr (by omega)] at hs
      simp only [Option.some.injEq] at hs
      rw [← hs] at hch
      exact absurd rfl hch

/-- A session of printable non-NUL bytes typed at the end of the line, then Enter. -/
theorem typed_session (size history_size : Int) (buffer : Mem) (i : Int)
    (hi0 : 0 ≤ i) (hi1 : i < history_size) (reads : List Read) (cr : Read)
    (hn : (reads.length : Int) ≤ size - 1) (hr : ∀ r ∈ reads, r.printable)
    (hcr : cr.commit) :
    ∃ ss, read_command size history_size buffer i (reads ++ [cr]) = some ss ∧
      ss.returned = some i ∧
      bytes_at ss.st.buffer (i * size) reads.length = reads.map (fun r => r.inbuf 0) ∧
      (∀ a, ¬ (i * size ≤ a ∧ a < i * size + size) → ss.st.buffer a = buffer a) := by
  have hsz : 0 ≤ size := by omega
  obtain ⟨ss, h1, h2, h3, _, _, h6, h7⟩ := loop_type size history_size reads
    ⟨init size buffer i, [], [], reads ++ [cr]⟩ 0 hi0 hi1 rfl rfl rfl (le_refl _) (by omega)
    (fun j hj0 hj1 => init_clear size buffer i j hj0 hj1) hr
  simp only [init, add_zero, zero_add] at h3 h6 h7
  rw [read_command_eq size history_size buffer i _ hi0 hi1 hsz,
    loop_append size history_size reads [cr] _ ss h1 h2]
  refine ⟨⟨{ ss.st with on_loop := false }, ss.out ++ [Out.write [13, 10]], ss.diag ++ [], []⟩,
    ?_, ?_, h6, ?_⟩
  · simp only [loop, h2, if_true, step_commit size history_size ss.st cr hcr]
  · simp [Session.returned, h3]
  · intro a ha
    show ss.st.buffer a = buffer a
    rw [h7 a (by omega)]
    unfold memset0
    rw [if_neg ha]

/-! ## Typing a line (C1, C8) -/

/-- C1: for a start index `i` in `[0, history_size - 1]`, any prior memory, and reads
that each deliver one byte other than 0, `\r`, `\n`, `\b`, 127, 27 (at most `size - 2`
of them) followed by a `\r` read, `read_command` returns `i`; slot `i` then holds the
bytes typed followed by a NUL, and `pos = len = n` at the commit. -/
theorem typed_line_is_returned (size history_size : Int) (buffer : Mem) (i : Int)
    (hi0 : 0 ≤ i) (hi1 : i < history_size) (reads : List Read) (cr : Read)
    (hn : (reads.length : Int) ≤ size - 2)
    (hr : ∀ r ∈ reads, r.readed = 1 ∧ r.inbuf 0 ≠ 0 ∧ r.inbuf 0 ≠ 13 ∧ r.inbuf 0 ≠ 10 ∧
      r.inbuf 0 ≠ 8 ∧ r.inbuf 0 ≠ 127 ∧ r.inbuf 0 ≠ 27)
    (hcr : cr.readed = 1 ∧ cr.inbuf 0 = 13) :
    ∃ ss, read_command size history_size buffer i (reads ++ [cr]) = some ss ∧
      ss.returned = some i ∧
      bytes_at ss.st.buffer (i * size) reads.length = reads.map (fun r => r.inbuf 0) ∧
      ss.st.buffer (i * size + reads.length) = 0 ∧
      ss.st.pos = reads.length ∧ ss.st.len = reads.length := by
  have hsz : 0 ≤ size := by omega
  obtain ⟨ss, h1, h2, h3, h4, h5, h6, h7⟩ := loop_type size history_size reads
    ⟨init size buffer i, [], [], reads ++ [cr]⟩ 0 hi0 hi1 rfl rfl rfl (le_refl _) (by omega)
    (fun j hj0 hj1 => init_clear size buffer i j hj0 hj1)
    (fun r hr' => by
      obtain ⟨a, _, b⟩ := hr r hr'
      exact ⟨by omega, b⟩)
  simp only [init, add_zero, zero_add] at h3 h4 h5 h6 h7
  rw [read_command_eq size history_size buffer i _ hi0 hi1 hsz,
    loop_append size history_size reads [cr] _ ss h1 h2]
  have hc : cr.commit := ⟨by omega, Or.inl hcr.2⟩
  refine ⟨⟨{ ss.st with on_loop := false }, ss.out ++ [Out.write [13, 10]], ss.diag ++ [], []⟩,
    ?_, ?_, h6, ?_, h4, h5⟩
  · simp only [loop, h2, if_true, step_commit size history_size ss.st cr hc]
  · simp [Session.returned, h3]
  · show ss.st.buffer (i * size + reads.length) = 0
    rw [h7 _ (by omega)]
    exact init_clear size buffer i _ (by omega) (by omega)

/-- C1 on the scenario of the specification: three slots of 16 bytes, start index 0,
"ab" then Enter. -/
theorem typed_line_is_returned_witness :
    ∃ ss, read_command 16 3 (mem_of [1, 2, 3, 4, 5]) 0 ([key 97, key 98] ++ [key 13]) = some ss ∧
      ss.returned = some 0 ∧
      bytes_at ss.st.buffer (0 * 16) ([key 97, key 98].length) =
        [key 97, key 98].map (fun r => r.inbuf 0) ∧
      ss.st.buffer (0 * 16 + ([key 97, key 98].length : Int)) = 0 ∧
      ss.st.pos = ([key 97, key 98].length : Int) ∧
      ss.st.len = ([key 97, key 98].length : Int) :=
  typed_line_is_returned 16 3 (mem_of [1, 2, 3, 4, 5]) 0 (by decide) (by decide)
    [key 97, key 98] (key 13) (by decide) (by simp [key]) (by simp [key])

/-- C8: in a session started at a valid index, `size - 1` reads handled as printable
bytes leave `len = size - 1` with the session still editing; in that state every
further printable read leaves the whole state (memory, `pos`, `len`) unchanged and
sends nothing to `fd` or `stdout`. -/
theorem full_line_drops_keystroke (size history_size : Int) (buffer : Mem) (i : Int)
    (hi0 : 0 ≤ i) (hi1 : i < history_size) (reads : List Read)
    (hn : (reads.length : Int) = size - 1) (hr : ∀ r ∈ reads, r.printable) :
    ∃ ss, read_command size history_size buffer i reads = some ss ∧
      ss.st.on_loop = true ∧ ss.st.len = size - 1 ∧
      ∀ r : Read, r.printable → step size history_size ss.st r = some ⟨ss.st, [], [], []⟩ := by
  have hsz : 0 ≤ size := by omega
  obtain ⟨ss, h1, h2, _, _, h5, _, _⟩ := loop_type size history_size reads
    ⟨init size buffer i, [], [], reads⟩ 0 hi0 hi1 rfl rfl rfl (le_refl _) (by omega)
    (fun j hj0 hj1 => init_clear size buffer i j hj0 hj1) hr
  rw [read_command_eq size history_size buffer i _ hi0 hi1 hsz]
  refine ⟨ss, h1, h2, by omega, fun r hp => ?_⟩
  exact step_printable_full size history_size ss.st r hp (by omega)

/-- C8 with slots of 3 bytes: after "ab" the line is full. -/
theorem full_line_drops_keystroke_witness :
    ∃ ss, read_command 3 2 (mem_of [7, 7, 7, 7, 7, 7]) 0 [key 97, key 98] = some ss ∧
      ss.st.on_loop = true ∧ ss.st.len = 3 - 1 ∧
      ∀ r : Read, r.printable → step 3 2 ss.st r = some ⟨ss.st, [], [], []⟩ :=
  full_line_drops_keystroke 3 2 (mem_of [7, 7, 7, 7, 7, 7]) 0 (by decide) (by decide)
    [key 97, key 98] (by decide) (by simp [Read.printable, key])

/-! ## Single editing events (C5, C6, C7) -/

/-- C5: in a state with `0 ≤ pos ≤ len < size - 1` whose live slot has a NUL at index
`len`, a read handled as a printable byte `c` yields the content
`old[0..pos) ++ [c] ++ old[pos..len)`, a NUL at index `len + 1`, and `pos` and `len`
each increased by one. -/
theorem printable_inserts_at_cursor (size history_size : Int) (s : State) (r : Read)
    (hr : r.printable)
    (hc0 : 0 ≤ s.current_history) (hc1 : s.current_history < history_size)
    (hp0 : 0 ≤ s.pos) (hpl : s.pos ≤ s.len) (hl : s.len < size - 1)
    (hz : s.buffer (s.current_history * size + s.len) = 0) :
    ∃ e, step size history_size s r = some e ∧
      bytes_at e.st.buffer (s.current_history * size) (s.len + 1) =
        bytes_at s.buffer (s.current_history * size) s.pos ++ [r.inbuf 0] ++
          bytes_at s.buffer (s.current_history * size + s.pos) (s.len - s.pos) ∧
      e.st.buffer (s.current_history * size + (s.len + 1)) = 0 ∧
      e.st.pos = s.pos + 1 ∧ e.st.len = s.len + 1 ∧
      e.st.current_history = s.current_history := by
  obtain ⟨n, _, _, _, hstep⟩ := step_printable size history_size s r hr hc0 hc1 hp0 hpl hl hz
  refine ⟨_, hstep, insert_char_content _ _ _ _ _ hp0 hpl, ?_, rfl, rfl, rfl⟩
  show (insert_char _ _ _ _ _).mem _ = 0
  rw [insert_char_mem, if_neg (by omega), if_pos (by omega), ← hz]
  congr 1; omega

/-- C5 at `size = 16`, three slots, slot 0 holding "ab", cursor at 1, typing `x`. -/
theorem printable_inserts_at_cursor_witness :
    ∃ e, step 16 3 ⟨mem_of [97, 98], 0, 1, 2, true⟩ (key 120) = some e ∧
      bytes_at e.st.buffer (0 * 16) (2 + 1) =
        bytes_at (mem_of [97, 98]) (0 * 16) 1 ++ [(key 120).inbuf 0] ++
          bytes_at (mem_of [97, 98]) (0 * 16 + 1) (2 - 1) ∧
      e.st.buffer (0 * 16 + (2 + 1)) = 0 ∧
      e.st.pos = 1 + 1 ∧ e.st.len = 2 + 1 ∧ e.st.current_history = 0 :=
  printable_inserts_at_cursor 16 3 ⟨mem_of [97, 98], 0, 1, 2, true⟩ (key 120)
    (by simp [Read.printable, key]) (by decide) (by decide) (by decide) (by decide)
    (by decide) (by decide)

/-- C6: in a state with `0 < pos ≤ len ≤ size - 1` whose live slot has a NUL at index
`len`, a read handled as Backspace (first byte 8 or 127) removes the byte at index
`pos - 1`: the new content is `old[0..pos-1) ++ old[pos..len)` with a NUL at index
`len - 1`, and `pos` and `len` each decrease by one. -/
theorem backspace_removes_before_cursor (size history_size : Int) (s : State) (r : Read)
    (hr : r.backspace)
    (hc0 : 0 ≤ s.current_history) (hc1 : s.current_history < history_size)
    (hp0 : 0 < s.pos) (hpl : s.pos ≤ s.len) (hl : s.len ≤ size - 1)
    (hz : s.buffer (s.current_history * size + s.len) = 0) :
    ∃ e, step size history_size s r = some e ∧
      bytes_at e.st.buffer (s.current_history * size) (s.len - 1) =
        bytes_at s.buffer (s.current_history * size) (s.pos - 1) ++
          bytes_at s.buffer (s.current_history * size + s.pos) (s.len - s.pos) ∧
      e.st.buffer (s.current_history * size + (s.len - 1)) = 0 ∧
      e.st.pos = s.pos - 1 ∧ e.st.len = s.len - 1 ∧
      e.st.current_history = s.current_history := by
  obtain ⟨n, _, _, _, hstep⟩ := step_backspace size history_size s r hr hc0 hc1 hp0 hpl hl hz
  refine ⟨_, hstep, ?_, ?_, rfl, rfl, rfl⟩
  · have h := remove_char_content s.buffer (s.current_history * size) (s.pos - 1) s.len
      (by omega) (by omega)
    have e1 : s.current_history * size + (s.pos - 1 + 1) = s.current_history * size + s.pos := by
      omega
    have e2 : s.len - 1 - (s.pos - 1) = s.len - s.pos := by omega
    rw [e1, e2] at h
    exact h
  · show (remove_char _ _ _ _).mem _ = 0
    rw [remove_char_mem, if_neg (by omega), if_pos (by omega), ← hz]
    congr 1; omega

/-- C6 at `size = 16`, three slots, slot 0 holding "abc", cursor at 2, byte 127. -/
theorem backspace_removes_before_cursor_witness :
    ∃ e, step 16 3 ⟨mem_of [97, 98, 99], 0, 2, 3, true⟩ (key 127) = some e ∧
      bytes_at e.st.buffer (0 * 16) (3 - 1) =
        bytes_at (mem_of [97, 98, 99]) (0 * 16) (2 - 1) ++
          bytes_at (mem_of [97, 98, 99]) (0 * 16 + 2) (3 - 2) ∧
      e.st.buffer (0 * 16 + (3 - 1)) = 0 ∧
      e.st.pos = 2 - 1 ∧ e.st.len = 3 - 1 ∧ e.st.current_history = 0 :=
  backspace_removes_before_cursor 16 3 ⟨mem_of [97, 98, 99], 0, 2, 3, true⟩ (key 127)
    (by simp [Read.backspace, key]) (by decide) (by decide) (by decide) (by decide)
    (by decide) (by decide)

/-- C7: in a state with `0 ≤ pos ≤ len ≤ size - 1` whose live slot has a NUL at index
`len`, a read starting ESC `[` 51 (ForwardDelete) changes nothing and emits nothing
when `pos = len`; when `pos < len` the new content is `old[0..pos) ++ old[pos+1..len)`
with a NUL at index `len - 1`, `len` decreases by one and `pos` is unchanged. -/
theorem forward_delete_at_cursor (size history_size : Int) (s : State) (r : Read)
    (hr : r.csi 51)
    (hc0 : 0 ≤ s.current_history) (hc1 : s.current_history < history_size)
    (hp0 : 0 ≤ s.pos) (_hpl : s.pos ≤ s.len) (hl : s.len ≤ size - 1)
    (hz : s.buffer (s.current_history * size + s.len) = 0) :
    (s.pos = s.len → step size history_size s r = some ⟨s, [], [], []⟩) ∧
    (s.pos < s.len →
      ∃ e, step size history_size s r = some e ∧
        bytes_at e.st.buffer (s.current_history * size) (s.len - 1) =
          bytes_at s.buffer (s.current_history * size) s.pos ++
            bytes_at s.buffer (s.current_history * size + (s.pos + 1)) (s.len - 1 - s.pos) ∧
        e.st.buffer (s.current_history * size + (s.len - 1)) = 0 ∧
        e.st.pos = s.pos ∧ e.st.len = s.len - 1 ∧
        e.st.current_history = s.current_history) := by
  constructor
  · intro h
    exact step_delete_end size history_size s r hr (by omega)
  · intro h
    obtain ⟨n, _, _, _, hstep⟩ := step_delete size history_size s r hr hc0 hc1 hp0 h hl hz
    refine ⟨_, hstep, remove_char_content _ _ _ _ hp0 h, ?_, rfl, rfl, rfl⟩
    show (remove_char _ _ _ _).mem _ = 0
    rw [remove_char_mem, if_neg (by omega), if_pos (by omega), ← hz]
    congr 1; omega

/-- C7 at `size = 16`, three slots, slot 0 holding "abc": with the cursor at 3 nothing
happens, with the cursor at 1 the byte "b" is removed. -/
theorem forward_delete_at_cursor_witness :
    step 16 3 ⟨mem_of [97, 98, 99], 0, 3, 3, true⟩ (csi 51) =
      some ⟨⟨mem_of [97, 98, 99], 0, 3, 3, true⟩, [], [], []⟩ ∧
    ∃ e, step 16 3 ⟨mem_of [97, 98, 99], 0, 1, 3, true⟩ (csi 51) = some e ∧
      bytes_at e.st.buffer (0 * 16) (3 - 1) =
        bytes_at (mem_of [97, 98, 99]) (0 * 16) 1 ++
          bytes_at (mem_of [97, 98, 99]) (0 * 16 + (1 + 1)) (3 - 1 - 1) ∧
      e.st.buffer (0 * 16 + (3 - 1)) = 0 ∧
      e.st.pos = 1 ∧ e.st.len = 3 - 1 ∧ e.st.current_history = 0 :=
  ⟨(forward_delete_at_cursor 16 3 ⟨mem_of [97, 98, 99], 0, 3, 3, true⟩ (csi 51)
      (by simp [Read.csi, csi]) (by decide) (by decide) (by decide) (by decide)
      (by decide) (by decide)).1 rfl,
   (forward_delete_at_cursor 16 3 ⟨mem_of [97, 98, 99], 0, 1, 3, true⟩ (csi 51)
      (by simp [Read.csi, csi]) (by decide) (by decide) (by decide) (by decide)
      (by decide) (by decide)).2 (by decide)⟩

/-! ## The history index (C9, C10) -/

/-- C9: from a start index in `[0, history_size - 1]`, after any sequence of reads
`current_history` is in `[0, history_size - 1]`, so the index `read_command` returns is
in range; HistoryOlder at `history_size - 1` and HistoryNewer at `0` change nothing. -/
theorem history_index_stays_in_range (size history_size : Int) (buffer : Mem) (i : Int)
    (hi0 : 0 ≤ i) (hi1 : i < history_size) :
    (∀ (reads : List Read) (ss : Session),
      read_command size history_size buffer i reads = some ss →
        0 ≤ ss.st.current_history ∧ ss.st.current_history < history_size ∧
        ∀ idx, ss.returned = some idx → 0 ≤ idx ∧ idx < history_size) ∧
    (∀ (s : State) (r : Read), r.csi 65 → s.current_history = history_size - 1 →
      step size history_size s r = some ⟨s, [], [], []⟩) ∧
    (∀ (s : State) (r : Read), r.csi 66 → s.current_history = 0 →
      step size history_size s r = some ⟨s, [], [], []⟩) := by
  refine ⟨fun reads ss h => ?_, fun s r hr hs => ?_, fun s r hr hs => ?_⟩
  · have hrange := history_range_aux size history_size buffer i hi0 hi1 reads ss h
    refine ⟨hrange.1, hrange.2, fun idx hidx => ?_⟩
    unfold Session.returned at hidx
    split at hidx
    · simp at hidx
    · simp only [Option.some.injEq] at hidx
      rw [← hidx]; exact hrange
  · exact step_older_top size history_size s r hr (by omega)
  · exact step_newer_bottom size history_size s r hr (by omega)

/-- C9 on three slots of 16 bytes: Up, Up, Up, Down, Enter from index 0. -/
theorem history_index_stays_in_range_witness :
    ∃ ss, read_command 16 3 (mem_of []) 0 [csi 65, csi 65, csi 65, csi 66, key 13] = some ss ∧
      0 ≤ ss.st.current_history ∧ ss.st.current_history < 3 ∧
      ∀ idx, ss.returned = some idx → 0 ≤ idx ∧ idx < 3 :=
  ⟨(read_command 16 3 (mem_of []) 0 [csi 65, csi 65, csi 65, csi 66, key 13]).get (by decide),
    (Option.some_get _).symm,
    (history_index_stays_in_range 16 3 (mem_of []) 0 (by decide) (by decide)).1 _ _
      (Option.some_get _).symm⟩

/-- C10: HistoryOlder below the last slot, and HistoryNewer above slot 0, move
`current_history` by one, set `len` to the NUL-terminated length `n` of the newly
selected slot, set `pos` to `max pos n`, and leave memory unchanged. After typing "xy"
at index 0 with slot 1 empty, HistoryOlder gives `current_history = 1`, `len = 0`,
`pos = 2`. -/
theorem history_move_selects_slot :
    (∀ (size history_size : Int) (s : State) (r : Read) (ch n : Int),
      ((r.csi 65 ∧ 0 ≤ s.current_history ∧ s.current_history < history_size - 1 ∧
          ch = s.current_history + 1) ∨
       (r.csi 66 ∧ 0 < s.current_history ∧ s.current_history < history_size ∧
          ch = s.current_history - 1)) →
      0 ≤ n → n < size → s.buffer (ch * size + n) = 0 →
      (∀ j, 0 ≤ j → j < n → s.buffer (ch * size + j) ≠ 0) →
      ∃ e, step size history_size s r = some e ∧ e.st.current_history = ch ∧
        e.st.len = n ∧ e.st.pos = max s.pos n ∧ e.st.buffer = s.buffer) ∧
    (∀ (size history_size : Int) (buffer : Mem), 3 ≤ size → 2 ≤ history_size →
      buffer (1 * size) = 0 →
      ∃ ss, read_command size history_size buffer 0 [key 120, key 121, csi 65] = some ss ∧
        ss.st.current_history = 1 ∧ ss.st.len = 0 ∧ ss.st.pos = 2) := by
  have general : ∀ (size history_size : Int) (s : State) (r : Read) (ch n : Int),
      ((r.csi 65 ∧ 0 ≤ s.current_history ∧ s.current_history < history_size - 1 ∧
          ch = s.current_history + 1) ∨
       (r.csi 66 ∧ 0 < s.current_history ∧ s.current_history < history_size ∧
          ch = s.current_history - 1)) →
      0 ≤ n → n < size → s.buffer (ch * size + n) = 0 →
      (∀ j, 0 ≤ j → j < n → s.buffer (ch * size + j) ≠ 0) →
      ∃ e, step size history_size s r = some e ∧ e.st.current_history = ch ∧
        e.st.len = n ∧ e.st.pos = max s.pos n ∧ e.st.buffer = s.buffer := by
    intro size history_size s r ch n hmove hn0 hn1 hz hnz
    have hch : 0 ≤ ch ∧ ch < history_size := by
      rcases hmove with ⟨_, a, b, c⟩ | ⟨_, a, b, c⟩ <;> omega
    obtain ⟨hb0, hb1⟩ := slot_bounds size history_size ch hch.1 hch.2 (by omega)
    have hlen := strlen_found (history_size * size) s.buffer (ch * size) n hb0 hn0
      (by omega) hz hnz
    have hgo := history_go_of_strlen size history_size s ch n hlen
    have hstep : step size history_size s r = history_go size history_size s ch := by
      rcases hmove with ⟨hr, _, b, c⟩ | ⟨hr, a, _, c⟩
      · rw [c]; exact step_older size history_size s r hr b
      · rw [c]; exact step_newer size history_size s r hr a
    exact ⟨_, hstep.trans hgo, rfl, rfl, rfl, rfl⟩
  refine ⟨general, ?_⟩
  intro size history_size buffer hs hh hempty
  obtain ⟨ss, h1, h2, h3, h4, h5, _, h7⟩ := loop_type size history_size [key 120, key 121]
    ⟨init size buffer 0, [], [], [key 120, key 121] ++ [csi 65]⟩ 0 (le_refl _)
    (show (0 : Int) < history_size by omega) rfl rfl rfl (le_refl _) (by simp; omega)
    (fun j hj0 hj1 => init_clear size buffer 0 j hj0 hj1)
    (fun r hr => by
      simp only [List.mem_cons, List.mem_singleton, List.not_mem_nil, or_false] at hr
      rcases hr with hr | hr <;> (rw [hr]; exact key_printable _ (by decide)))
  simp only [init, List.length_cons, List.length_nil] at h3 h4 h5 h7
  have hslot1 : ss.st.buffer (1 * size) = 0 := by
    rw [h7 _ (by push_cast; omega)]
    show memset0 buffer (0 * size) size (1 * size) = 0
    unfold memset0
    rw [if_neg (by omega)]
    exact hempty
  obtain ⟨e, he, e1, e2, e3, _⟩ := general size history_size ss.st (csi 65) 1 0
    (Or.inl ⟨csi_csi 65, by omega, by omega, by omega⟩) (le_refl _) (by omega)
    (by rw [add_zero]; exact hslot1) (fun j a b => by omega)
  have hrc : read_command size history_size buffer 0 [key 120, key 121, csi 65] =
      loop size history_size ([key 120, key 121] ++ [csi 65])
        ⟨init size buffer 0, [], [], [key 120, key 121] ++ [csi 65]⟩ :=
    read_command_eq size history_size buffer 0 _ (le_refl _) (by omega) (by omega)
  rw [hrc, loop_append size history_size [key 120, key 121] [csi 65] _ ss h1 h2]
  refine ⟨⟨e.st, ss.out ++ e.out, ss.diag ++ e.diag, []⟩, ?_, e1, e2, ?_⟩
  · simp only [loop, h2, if_true, he]
  · show e.st.pos = 2
    rw [e3, h4]
    simp

/-- C10 on three slots of 16 bytes: HistoryNewer from slot 1 to slot 0 holding "abc"
with the cursor at 1, and the "xy" scenario. -/
theorem history_move_selects_slot_witness :
    (∃ e, step 16 3 ⟨mem_of [97, 98, 99], 1, 1, 0, true⟩ (csi 66) = some e ∧
      e.st.current_history = 0 ∧ e.st.len = 3 ∧
      e.st.pos = max 1 3 ∧ e.st.buffer = mem_of [97, 98, 99]) ∧
    (∃ ss, read_command 16 3 (mem_of []) 0 [key 120, key 121, csi 65] = some ss ∧
      ss.st.current_history = 1 ∧ ss.st.len = 0 ∧ ss.st.pos = 2) :=
  ⟨history_move_selects_slot.1 16 3 ⟨mem_of [97, 98, 99], 1, 1, 0, true⟩ (csi 66) 0 3
      (Or.inr ⟨csi_csi 66, by decide, by decide, by decide⟩) (by decide) (by decide)
      (by decide) (by
        intro j h0 h1
        have : j = 0 ∨ j = 1 ∨ j = 2 := by omega
        rcases this with h | h | h <;> (subst h; decide)),
   history_move_selects_slot.2 16 3 (mem_of []) (by decide) (by decide) (by decide)⟩

/-! ## The cursor rule of the history moves (C2, C4)

`case 65` and `case 66` set `pos = std::max(pos, len)`, so a move to a shorter line
leaves `pos > len`; the other cases then run with a cursor past the end of the line. -/

/-- C2, evaluated on the program's array (10 slots of 2048 bytes, all zero) from start
index 0: after the reads "x", "y", ESC `[` `A` the editor is at slot 1 with `pos = 2`
and `len = 0`, so `pos ≤ len` does not hold in a reachable state. -/
theorem cursor_past_length_after_history_older :
    ∃ ss, read_command 2048 10 (fun _ => 0) 0 [key 120, key 121, csi 65] = some ss ∧
      ss.st.on_loop = true ∧ ss.st.current_history = 1 ∧ ss.st.pos = 2 ∧ ss.st.len = 0 ∧
      ¬ (0 ≤ ss.st.pos ∧ ss.st.pos ≤ ss.st.len ∧ ss.st.len < 2048) :=
  ⟨(read_command 2048 10 (fun _ => 0) 0 [key 120, key 121, csi 65]).get (by decide),
    (Option.some_get _).symm, by decide, by decide, by decide, by decide, by decide⟩

/-- C4, evaluated on the program's array (10 slots of 2048 bytes, all zero) from start
index 0: the reads "x", ESC `[` `A`, Backspace, ESC `[` 70 reach slot 1 with
`pos = len = -1`; the printable read "a" then stores at index `-1` of the live slot,
which is the last byte of slot 0 (address 2047), and changes it from 0 to 97. -/
theorem printable_writes_outside_live_slot :
    ∃ ss e, read_command 2048 10 (fun _ => 0) 0 [key 120, csi 65, key 8, csi 70] = some ss ∧
      ss.st.on_loop = true ∧ ss.st.current_history = 1 ∧ ss.st.pos = -1 ∧ ss.st.len = -1 ∧
      step 2048 10 ss.st (key 97) = some e ∧
      Access.store (-1) ∈ e.trace ∧
      ss.st.buffer (0 * 2048 + 2047) = 0 ∧ e.st.buffer (0 * 2048 + 2047) = 97 :=
  ⟨(read_command 2048 10 (fun _ => 0) 0 [key 120, csi 65, key 8, csi 70]).get (by decide),
    (step 2048 10
      ((read_command 2048 10 (fun _ => 0) 0 [key 120, csi 65, key 8, csi 70]).get
        (by decide)).st (key 97)).get (by decide),
    (Option.some_get _).symm, by decide, by decide, by decide, by decide,
    (Option.some_get _).symm, by decide, by decide, by decide⟩

/-! ## The committed line (C3) -/

/-- C3, evaluated for every array of at least two slots of `n ≥ 2` bytes, all zero, from
start index 0: after ESC `[` `A`, "x", ESC `[` `B`, Backspace the editor is at slot 0
with `pos = 0` and `len = -1`; `n` reads "a" are then all accepted (the test
`len < size - 1` passes each time) and fill all `n` bytes of slot 0. Enter returns
index 0, whose slot holds no NUL; the string starting there has length `n + 1`. -/
theorem committed_slot_without_nul (n : Nat) (history_size : Int) (hn : 2 ≤ n)
    (hh : 2 ≤ history_size) :
    ∃ ss, read_command n history_size (fun _ => 0) 0 (overfill n) = some ss ∧
      ss.returned = some 0 ∧
      (∀ j : Int, 0 ≤ j → j < n → ss.st.buffer (0 * n + j) ≠ 0) ∧
      strlen (history_size * n) ss.st.buffer (0 * n) = some ((n : Int) + 1) := by
  have hs : (2 : Int) ≤ n := by exact_mod_cast hn
  have hHs : 2 * (n : Int) ≤ history_size * n := mul_le_mul_of_nonneg_right hh (by omega)
  obtain ⟨ssA, hA, a1, a2, a3, a4, a5⟩ := loop_prepare n history_size hs hh (overfill n)
  obtain ⟨ssB, hB, b1, b2, b3, b4, b5⟩ := loop_fill n history_size hs hh n ssA 0 (le_refl _)
    (by omega) a1 a2 a3 (by rw [a4]; rfl)
    (by
      intro a
      rw [a5 a, if_neg (show ¬ (0 ≤ a ∧ a < 0) by omega)])
  rw [zero_add] at b3 b4 b5
  have hc : (key 13).commit := by simp [Read.commit, key]
  rw [read_command_eq n history_size _ 0 _ (le_refl _) (by omega) (by omega)]
  unfold overfill at hA ⊢
  rw [loop_append n history_size _ _ _ ssA hA a1, loop_append n history_size _ _ _ ssB hB b1,
    loop_cons n history_size _ _ ssB _ b1 (step_commit n history_size ssB.st (key 13) hc), loop]
  refine ⟨_, rfl, ?_, ?_, ?_⟩
  · simp [Session.returned, b2]
  · intro j hj0 hj1
    show ssB.st.buffer (0 * n + j) ≠ 0
    rw [b5, if_pos (by omega)]
    decide
  · show strlen (history_size * n) ssB.st.buffer (0 * n) = some ((n : Int) + 1)
    apply strlen_found
    · omega
    · omega
    · omega
    · rw [b5, if_neg (by omega), if_neg (by omega)]
    · intro j hj0 hj1
      rw [b5]
      by_cases h : 0 ≤ 0 * (n : Int) + j ∧ 0 * (n : Int) + j < n
      · rw [if_pos h]; decide
      · rw [if_neg h, if_pos (by omega)]; decide

/-- C3 on the program's array: 10 slots of 2048 bytes. -/
theorem committed_slot_without_nul_witness :
    ∃ ss, read_command (2048 : Nat) 10 (fun _ => 0) 0 (overfill 2048) = some ss ∧
      ss.returned = some 0 ∧
      (∀ j : Int, 0 ≤ j → j < (2048 : Nat) → ss.st.buffer (0 * (2048 : Nat) + j) ≠ 0) ∧
      strlen (10 * (2048 : Nat)) ss.st.buffer (0 * (2048 : Nat)) = some (((2048 : Nat) : Int) + 1) :=
  committed_slot_without_nul 2048 10 (by decide) (by decide)

/-! ## Reads that change nothing (C11, C12) -/

/-- C11: a read starting ESC `[` with a third byte outside {65, 66, 67, 68, 72, 70, 51},
and a read starting ESC with a second byte other than `[`, leave the whole state
(every slot, `pos`, `len`, `current_history`, and `on_loop`, so the session keeps
editing) unchanged and send nothing to `fd`; the first form only prints the bytes read
to `stdout`. -/
theorem unrecognized_escape_is_ignored (size history_size : Int) (s : State) (r : Read)
    (h1 : r.readed ≥ 1) (h2 : r.inbuf 0 = 27)
    (h3 : (r.inbuf 1 = 91 ∧ r.inbuf 2 ≠ 65 ∧ r.inbuf 2 ≠ 66 ∧ r.inbuf 2 ≠ 67 ∧
            r.inbuf 2 ≠ 68 ∧ r.inbuf 2 ≠ 72 ∧ r.inbuf 2 ≠ 70 ∧ r.inbuf 2 ≠ 51) ∨
          r.inbuf 1 ≠ 91) :
    ∃ e, step size history_size s r = some e ∧ e.st = s ∧ e.out = [] ∧ e.trace = [] ∧
      (r.inbuf 1 = 91 → e.diag = [(List.range r.readed.toNat).map r.inbuf]) ∧
      (r.inbuf 1 ≠ 91 → e.diag = []) := by
  rcases h3 with ⟨a, b⟩ | a
  · exact ⟨_, step_unknown size history_size s r h1 h2 a b, rfl, rfl, rfl, fun _ => rfl,
      fun h => absurd a h⟩
  · exact ⟨_, step_esc_other size history_size s r h1 h2 a, rfl, rfl, rfl,
      fun h => absurd h a, fun _ => rfl⟩

/-- C11 on slot 0 holding "ab" with the cursor at 1: ESC `[` `Z`. -/
theorem unrecognized_escape_is_ignored_witness :
    ∃ e, step 16 3 ⟨mem_of [97, 98], 0, 1, 2, true⟩ (csi 90) = some e ∧
      e.st = ⟨mem_of [97, 98], 0, 1, 2, true⟩ ∧ e.out = [] ∧ e.trace = [] ∧
      ((csi 90).inbuf 1 = 91 → e.diag = [(List.range (csi 90).readed.toNat).map (csi 90).inbuf]) ∧
      ((csi 90).inbuf 1 ≠ 91 → e.diag = []) :=
  unrecognized_escape_is_ignored 16 3 ⟨mem_of [97, 98], 0, 1, 2, true⟩ (csi 90)
    (by decide) (by decide) (Or.inl (by decide))

/-- C12: a read handled as Backspace (first byte 8 or 127) with `pos = 0` sends nothing
to `fd` or `stdout` and leaves the whole state unchanged. -/
theorem backspace_at_home_is_ignored (size history_size : Int) (s : State) (r : Read)
    (hr : r.backspace) (hp : s.pos = 0) :
    step size history_size s r = some ⟨s, [], [], []⟩ :=
  step_backspace_home size history_size s r hr (by omega)

/-- C12 on an empty line. -/
theorem backspace_at_home_is_ignored_witness :
    step 16 3 (init 16 (mem_of [5, 6, 7]) 0) (key 8) =
      some ⟨init 16 (mem_of [5, 6, 7]) 0, [], [], []⟩ :=
  backspace_at_home_is_ignored 16 3 (init 16 (mem_of [5, 6, 7]) 0) (key 8)
    (by simp [Read.backspace, key]) rfl

/-! ## Sessions without history moves (C16) -/

/-- C16: in a session started at a valid index (slots of at least one byte) whose reads
are never decoded as HistoryOlder or HistoryNewer and never as the printable byte NUL,
the run is defined for every sequence of such reads and ends in a state with
`0 ≤ pos ≤ len ≤ size - 1`, the bytes of the live slot at `[0, len)` non-zero and those
at `[len, size)` zero; and in every such state each such read yields a state of the same
kind while `insert_char` and `remove_char` only use indices in `[0, size - 1]`. -/
theorem line_stays_well_formed (size history_size : Int) (buffer : Mem) (i : Int)
    (hi0 : 0 ≤ i) (hi1 : i < history_size) (hs : 1 ≤ size) :
    (∀ reads : List Read, (∀ r ∈ reads, r.plain) →
      ∃ ss, read_command size history_size buffer i reads = some ss ∧
        ss.st.current_history = i ∧
        0 ≤ ss.st.pos ∧ ss.st.pos ≤ ss.st.len ∧ ss.st.len ≤ size - 1 ∧
        (∀ j, 0 ≤ j → j < ss.st.len → ss.st.buffer (i * size + j) ≠ 0) ∧
        (∀ j, ss.st.len ≤ j → j < size → ss.st.buffer (i * size + j) = 0)) ∧
    (∀ (s : State) (r : Read), s.current_history = i → s.tidy size → r.plain →
      ∃ e, step size history_size s r = some e ∧ e.st.current_history = i ∧
        e.st.tidy size ∧ ∀ x ∈ e.trace, 0 ≤ x.idx ∧ x.idx ≤ size - 1) := by
  constructor
  · intro reads hr
    obtain ⟨ss, h1, h2, h3⟩ := loop_tidy size history_size reads
      ⟨init size buffer i, [], [], reads⟩ hr hi0 hi1 (init_tidy size buffer i hs)
    replace h2 : ss.st.current_history = i := h2
    rw [read_command_eq size history_size buffer i reads hi0 hi1 (by omega)]
    obtain ⟨t0, t1, t2, t3, t4⟩ := h3
    rw [h2] at t3 t4
    exact ⟨ss, h1, h2, t0, t1, t2, t3, t4⟩
  · intro s r hc ht hr
    obtain ⟨e, he, e1, e2, e3⟩ := step_tidy size history_size s r (by omega) (by omega) ht hr
    exact ⟨e, he, e1.trans hc, e2, e3⟩

/-- C16 on three slots of 8 bytes: "ab", Left, "c", Backspace, ESC `[` 51, Home, End. -/
theorem line_stays_well_formed_witness :
    ∃ ss, read_command 8 3 (mem_of [9, 9, 9]) 1
        [key 97, key 98, csi 68, key 99, key 127, csi 51, csi 72, csi 70] = some ss ∧
      ss.st.current_history = 1 ∧
      0 ≤ ss.st.pos ∧ ss.st.pos ≤ ss.st.len ∧ ss.st.len ≤ 8 - 1 ∧
      (∀ j, 0 ≤ j → j < ss.st.len → ss.st.buffer (1 * 8 + j) ≠ 0) ∧
      (∀ j, ss.st.len ≤ j → j < 8 → ss.st.buffer (1 * 8 + j) = 0) :=
  (line_stays_well_formed 8 3 (mem_of [9, 9, 9]) 1 (by decide) (by decide) (by decide)).1
    [key 97, key 98, csi 68, key 99, key 127, csi 51, csi 72, csi 70]
    (by simp [Read.plain, Read.csi, key, csi])

/-! ## Insert then Backspace (C17), the first byte of a read (C19) -/

/-- C17: in a state with `0 ≤ pos ≤ len < size - 1` whose live slot is zero at
`[len, size)`, a read handled as a printable byte followed by a read handled as
Backspace restores all of memory, `pos` and `len` to their values before the insertion. -/
theorem insert_then_backspace_restores (size history_size : Int) (s : State) (r1 r2 : Read)
    (hr1 : r1.printable) (hr2 : r2.backspace)
    (hc0 : 0 ≤ s.current_history) (hc1 : s.current_history < history_size)
    (hp0 : 0 ≤ s.pos) (hpl : s.pos ≤ s.len) (hl : s.len < size - 1)
    (hz : ∀ j, s.len ≤ j → j < size → s.buffer (s.current_history * size + j) = 0) :
    ∃ e1 e2, step size history_size s r1 = some e1 ∧
      step size history_size e1.st r2 = some e2 ∧
      (∀ a, e2.st.buffer a = s.buffer a) ∧ e2.st.pos = s.pos ∧ e2.st.len = s.len ∧
      e2.st.current_history = s.current_history := by
  obtain ⟨n1, _, _, _, h1⟩ := step_printable size history_size s r1 hr1 hc0 hc1 hp0 hpl hl
    (hz s.len (le_refl _) (by omega))
  have hnul : (insert_char (r1.inbuf 0) s.buffer (s.current_history * size) s.pos s.len).mem
      (s.current_history * size + (s.len + 1)) = 0 := by
    rw [insert_char_mem, if_neg (by omega), if_pos (by omega), ← hz s.len (le_refl _) (by omega)]
    congr 1; omega
  obtain ⟨n2, _, _, _, h2⟩ := step_backspace size history_size
    { s with
      buffer := (insert_char (r1.inbuf 0) s.buffer (s.current_history * size) s.pos s.len).mem,
      pos := s.pos + 1, len := s.len + 1 } r2 hr2 hc0 hc1
    (show 0 < s.pos + 1 by omega) (show s.pos + 1 ≤ s.len + 1 by omega)
    (show s.len + 1 ≤ size - 1 by omega) hnul
  refine ⟨_, _, h1, h2, ?_, ?_, ?_, rfl⟩
  · intro a
    show (remove_char (insert_char (r1.inbuf 0) s.buffer (s.current_history * size)
      s.pos s.len).mem (s.current_history * size) (s.pos + 1 - 1) (s.len + 1)).mem a = s.buffer a
    rw [show s.pos + 1 - 1 = s.pos by omega]
    exact insert_remove_mem _ _ _ _ _ hpl (hz (s.len + 1) (by omega) (by omega)) a
  · show s.pos + 1 - 1 = s.pos
    omega
  · show s.len + 1 - 1 = s.len
    omega

/-- C17 on slot 0 holding "ab" with the cursor at 1: "x" then byte 127. -/
theorem insert_then_backspace_restores_witness :
    ∃ e1 e2, step 16 3 ⟨mem_of [97, 98], 0, 1, 2, true⟩ (key 120) = some e1 ∧
      step 16 3 e1.st (key 127) = some e2 ∧
      (∀ a, e2.st.buffer a = mem_of [97, 98] a) ∧ e2.st.pos = 1 ∧ e2.st.len = 2 ∧
      e2.st.current_history = 0 :=
  insert_then_backspace_restores 16 3 ⟨mem_of [97, 98], 0, 1, 2, true⟩ (key 120) (key 127)
    (key_printable 120 (by decide)) (by simp [Read.backspace, key]) (by decide) (by decide)
    (by decide) (by decide) (by decide)
    (by
      intro j h0 h1
      have h0' : (2 : Int) ≤ j := h0
      interval_cases j <;> decide)

/-- C19: two reads handled as printable bytes with the same first byte give the same
result (state, output, or undefined behaviour) whatever their counts and remaining
bytes; and in a state with `0 ≤ pos ≤ len < size - 1` and a NUL at `len` such a read
inserts its first byte only: `len` grows by exactly one and the content becomes
`old[0..pos) ++ [inbuf[0]] ++ old[pos..len)`. -/
theorem printable_read_uses_first_byte_only (size history_size : Int) (s : State)
    (r1 r2 : Read) (hr1 : r1.printable) (hr2 : r2.printable) (h : r1.inbuf 0 = r2.inbuf 0) :
    step size history_size s r1 = step size history_size s r2 ∧
    (0 ≤ s.current_history → s.current_history < history_size → 0 ≤ s.pos →
      s.pos ≤ s.len → s.len < size - 1 →
      s.buffer (s.current_history * size + s.len) = 0 →
      ∃ e, step size history_size s r1 = some e ∧ e.st.len = s.len + 1 ∧
        e.st.pos = s.pos + 1 ∧
        bytes_at e.st.buffer (s.current_history * size) (s.len + 1) =
          bytes_at s.buffer (s.current_history * size) s.pos ++ [r1.inbuf 0] ++
            bytes_at s.buffer (s.current_history * size + s.pos) (s.len - s.pos) ∧
        e.st.buffer (s.current_history * size + (s.len + 1)) = 0) := by
  constructor
  · rw [step_default size history_size s r1 hr1, step_default size history_size s r2 hr2, h]
  · intro hc0 hc1 hp0 hpl hl hz
    obtain ⟨n, _, _, _, hstep⟩ := step_printable size history_size s r1 hr1 hc0 hc1 hp0 hpl hl hz
    refine ⟨_, hstep, rfl, rfl, insert_char_content _ _ _ _ _ hp0 hpl, ?_⟩
    show (insert_char _ _ _ _ _).mem _ = 0
    rw [insert_char_mem, if_neg (by omega), if_pos (by omega), ← hz]
    congr 1; omega

/-- C19 on slot 0 holding "ab" with the cursor at 1: a one-byte read "x" and a four-byte
read "xyzw". -/
theorem printable_read_uses_first_byte_only_witness :
    step 16 3 ⟨mem_of [97, 98], 0, 1, 2, true⟩ (key 120) =
      step 16 3 ⟨mem_of [97, 98], 0, 1, 2, true⟩
        ⟨4, fun i => if i = 0 then 120 else if i = 1 then 121 else if i = 2 then 122 else 119⟩ :=
  (printable_read_uses_first_byte_only 16 3 ⟨mem_of [97, 98], 0, 1, 2, true⟩ (key 120)
    ⟨4, fun i => if i = 0 then 120 else if i = 1 then 121 else if i = 2 then 122 else 119⟩
    (key_printable 120 (by decide)) (by simp [Read.printable]) rfl).1

/-! ## The redraw of a history move (C18, C13) -/

/-- C18: when a read decoded as HistoryOlder or HistoryNewer changes `current_history`,
the new cursor is `max(old pos, new len)` and the count `new len - new pos` given to
the final `move_right` is at most zero: the sequence sent is ESC `[` `0` `C` or
ESC `[` `-` digits `C`. -/
theorem history_redraw_count_not_positive (size history_size : Int) (s : State) (r : Read)
    (e : Step) (hr : r.csi 65 ∨ r.csi 66) (hs : step size history_size s r = some e)
    (hch : e.st.current_history ≠ s.current_history) :
    e.st.pos = max s.pos e.st.len ∧ e.st.len - e.st.pos ≤ 0 ∧
    e.out = [Out.left s.pos,
             Out.write (bytes_at s.buffer (e.st.current_history * size) e.st.len),
             Out.right (e.st.len - e.st.pos)] ∧
    ((e.st.len - e.st.pos = 0 ∧
        (Out.right (e.st.len - e.st.pos)).bytes = [27, 91, 48, 67]) ∨
     (e.st.len - e.st.pos < 0 ∧
        (Out.right (e.st.len - e.st.pos)).bytes =
          [27, 91, 45] ++ (Nat.toDigits 10 (e.st.len - e.st.pos).natAbs).map Char.toNat ++
            [67])) := by
  obtain ⟨ch, n, _, he⟩ := step_history_moved size history_size s r e hr hs hch
  subst he
  refine ⟨rfl, ?_, rfl, ?_⟩
  · show n - max s.pos n ≤ 0
    omega
  · show (n - max s.pos n = 0 ∧ (Out.right (n - max s.pos n)).bytes = [27, 91, 48, 67]) ∨
      (n - max s.pos n < 0 ∧ (Out.right (n - max s.pos n)).bytes =
        [27, 91, 45] ++ (Nat.toDigits 10 (n - max s.pos n).natAbs).map Char.toNat ++ [67])
    by_cases h : n - max s.pos n = 0
    · left
      refine ⟨h, ?_⟩
      rw [h]
      decide
    · right
      have h' : n - max s.pos n < 0 := by omega
      refine ⟨h', ?_⟩
      simp [Out.bytes, fmt_d_neg _ h']

/-- C18 after "xy" in slot 0: HistoryOlder to the empty slot 1 sends ESC `[` `-2` `C`. -/
theorem history_redraw_count_not_positive_witness :
    ∃ e, step 16 3 ⟨mem_of [120, 121], 0, 2, 2, true⟩ (csi 65) = some e ∧
      e.st.pos = max 2 e.st.len ∧ e.st.len - e.st.pos ≤ 0 ∧
      e.out = [Out.left 2, Out.write (bytes_at (mem_of [120, 121])
                (e.st.current_history * 16) e.st.len), Out.right (e.st.len - e.st.pos)] ∧
      ((e.st.len - e.st.pos = 0 ∧
          (Out.right (e.st.len - e.st.pos)).bytes = [27, 91, 48, 67]) ∨
       (e.st.len - e.st.pos < 0 ∧
          (Out.right (e.st.len - e.st.pos)).bytes =
            [27, 91, 45] ++ (Nat.toDigits 10 (e.st.len - e.st.pos).natAbs).map Char.toNat ++
              [67])) :=
  ⟨(step 16 3 ⟨mem_of [120, 121], 0, 2, 2, true⟩ (csi 65)).get (by decide),
    (Option.some_get _).symm,
    history_redraw_count_not_positive 16 3 ⟨mem_of [120, 121], 0, 2, 2, true⟩ (csi 65) _
      (Or.inl (csi_csi 65)) (Option.some_get _).symm (by decide)⟩

/-- C13, evaluated on the program's array (10 slots of 2048 bytes, all zero) from start
index 0: after "x", "y" the read ESC `[` `A` sends ESC `[` `2` `D`, an empty write and
ESC `[` `-2` `C`, a net displacement of `-4`, while `pos` stays `2`: the displacement of
the output is not the change of the cursor. -/
theorem history_move_output_displacement :
    ∃ ss e, read_command 2048 10 (fun _ => 0) 0 [key 120, key 121] = some ss ∧
      ss.st.on_loop = true ∧ ss.st.pos = 2 ∧
      step 2048 10 ss.st (csi 65) = some e ∧
      e.out = [Out.left 2, Out.write [], Out.right (-2)] ∧
      displacement e.out = -4 ∧ e.st.pos - ss.st.pos = 0 ∧
      displacement e.out ≠ e.st.pos - ss.st.pos :=
  ⟨(read_command 2048 10 (fun _ => 0) 0 [key 120, key 121]).get (by decide),
    (step 2048 10
      ((read_command 2048 10 (fun _ => 0) 0 [key 120, key 121]).get (by decide)).st
      (csi 65)).get (by decide),
    (Option.some_get _).symm, by decide, by decide, (Option.some_get _).symm,
    by decide, by decide, by decide, by decide⟩

/-! ## An escape sequence split over two reads (C14) -/

/-- C14 as stated fails: in a fresh session on three zeroed slots of 16 bytes, a read
delivering only ESC (the rest of `inbuf` zero) followed by a read delivering `[` `A`
leaves `len = 1`, `pos = 1` and the byte `[` at the start of slot 0, where the session
began with `len = 0`, `pos = 0` and that byte zero. -/
theorem split_escape_changes_line :
    ∃ ss0 ss, read_command 16 3 (fun _ => 0) 0 [] = some ss0 ∧
      read_command 16 3 (fun _ => 0) 0 [esc_alone, bracket 65] = some ss ∧
      ss0.st.len = 0 ∧ ss0.st.pos = 0 ∧ ss0.st.buffer (0 * 16 + 0) = 0 ∧
      ss.st.len = 1 ∧ ss.st.pos = 1 ∧ ss.st.buffer (0 * 16 + 0) = 91 ∧
      ¬ (ss.st.len = ss0.st.len ∧ ss.st.pos = ss0.st.pos ∧
          ss.st.buffer (0 * 16 + 0) = ss0.st.buffer (0 * 16 + 0)) :=
  ⟨(read_command 16 3 (fun _ => 0) 0 []).get (by decide),
    (read_command 16 3 (fun _ => 0) 0 [esc_alone, bracket 65]).get (by decide),
    (Option.some_get _).symm, (Option.some_get _).symm,
    by decide, by decide, by decide, by decide, by decide, by decide, by decide⟩

/-- C14 amended: when ESC `[` X arrives as a read of the single byte ESC whose unread
second position of `inbuf` does not hold `[`, followed by a read of `[` X, the first read
changes nothing and sends nothing, and the second is handled as the printable byte `[`:
in a state with `0 ≤ pos ≤ len < size - 1` and a NUL at `len` it inserts `[` at the
cursor (`pos` and `len` grow by one, X is dropped, `current_history` is kept), and with
`len = size - 1` it changes nothing either. -/
theorem split_escape_second_read_is_printable (size history_size : Int) (s : State)
    (r1 r2 : Read) (h1 : r1.readed = 1) (h2 : r1.inbuf 0 = 27) (h3 : r1.inbuf 1 ≠ 91)
    (k1 : r2.readed = 2) (k2 : r2.inbuf 0 = 91)
    (hc0 : 0 ≤ s.current_history) (hc1 : s.current_history < history_size)
    (hp0 : 0 ≤ s.pos) (hpl : s.pos ≤ s.len)
    (hz : s.buffer (s.current_history * size + s.len) = 0) :
    step size history_size s r1 = some ⟨s, [], [], []⟩ ∧
    (s.len < size - 1 →
      ∃ e, step size history_size s r2 = some e ∧
        bytes_at e.st.buffer (s.current_history * size) (s.len + 1) =
          bytes_at s.buffer (s.current_history * size) s.pos ++ [91] ++
            bytes_at s.buffer (s.current_history * size + s.pos) (s.len - s.pos) ∧
        e.st.buffer (s.current_history * size + (s.len + 1)) = 0 ∧
        e.st.pos = s.pos + 1 ∧ e.st.len = s.len + 1 ∧
        e.st.current_history = s.current_history) ∧
    (s.len = size - 1 → step size history_size s r2 = some ⟨s, [], [], []⟩) := by
  have hp : r2.printable := ⟨by omega, by omega, by omega, by omega, by omega, by omega⟩
  refine ⟨step_esc_other size history_size s r1 (by omega) h2 h3, fun hl => ?_, fun hl => ?_⟩
  · obtain ⟨n, _, _, _, hstep⟩ := step_printable size history_size s r2 hp hc0 hc1 hp0 hpl hl hz
    refine ⟨_, hstep, ?_, ?_, rfl, rfl, rfl⟩
    · rw [← k2]
      exact insert_char_content (r2.inbuf 0) s.buffer (s.current_history * size) s.pos s.len
        hp0 hpl
    · show (insert_char _ _ _ _ _).mem _ = 0
      rw [insert_char_mem, if_neg (by omega), if_pos (by omega), ← hz]
      congr 1; omega
  · exact step_printable_full size history_size s r2 hp (by omega)

/-- C14 amended, on slot 0 holding "ab" with the cursor at 1: ESC alone, then `[` `A`. -/
theorem split_escape_second_read_is_printable_witness :
    step 16 3 ⟨mem_of [97, 98], 0, 1, 2, true⟩ esc_alone =
      some ⟨⟨mem_of [97, 98], 0, 1, 2, true⟩, [], [], []⟩ ∧
    ∃ e, step 16 3 ⟨mem_of [97, 98], 0, 1, 2, true⟩ (bracket 65) = some e ∧
      bytes_at e.st.buffer (0 * 16) (2 + 1) =
        bytes_at (mem_of [97, 98]) (0 * 16) 1 ++ [91] ++
          bytes_at (mem_of [97, 98]) (0 * 16 + 1) (2 - 1) ∧
      e.st.buffer (0 * 16 + (2 + 1)) = 0 ∧
      e.st.pos = 1 + 1 ∧ e.st.len = 2 + 1 ∧ e.st.current_history = 0 :=
  ⟨(split_escape_second_read_is_printable 16 3 ⟨mem_of [97, 98], 0, 1, 2, true⟩ esc_alone
      (bracket 65) rfl rfl (by decide) rfl rfl (by decide) (by decide) (by decide)
      (by decide) (by decide)).1,
   (split_escape_second_read_is_printable 16 3 ⟨mem_of [97, 98], 0, 1, 2, true⟩ esc_alone
      (bracket 65) rfl rfl (by decide) rfl rfl (by decide) (by decide) (by decide)
      (by decide) (by decide)).2.1 (by decide)⟩

/-! ## The slot cleared on entry (C15) -/

/-- C15: for a start index `i` in range and any prior memory, a session of one Enter
returns `i` with the `size` bytes of slot `i` zero and every byte outside slot `i`
unchanged; and after a session that typed a non-empty line of non-NUL bytes and
committed without navigation (returning `i`, slot `i` starting with the first byte
typed), a session started at `i` on the resulting memory begins with slot `i` all zero,
`pos = 0` and `len = 0`. -/
theorem start_slot_is_cleared (size history_size : Int) (buffer : Mem) (i : Int)
    (hi0 : 0 ≤ i) (hi1 : i < history_size) (hs : 0 ≤ size) :
    (∀ cr : Read, cr.commit →
      ∃ ss, read_command size history_size buffer i [cr] = some ss ∧
        ss.returned = some i ∧
        (∀ j, 0 ≤ j → j < size → ss.st.buffer (i * size + j) = 0) ∧
        (∀ a, ¬ (i * size ≤ a ∧ a < i * size + size) → ss.st.buffer a = buffer a)) ∧
    (∀ (r : Read) (rs : List Read) (cr : Read),
      ((r :: rs).length : Int) ≤ size - 1 →
      (∀ x ∈ r :: rs, x.printable ∧ x.inbuf 0 ≠ 0) → cr.commit →
      ∃ ss1, read_command size history_size buffer i (r :: rs ++ [cr]) = some ss1 ∧
        ss1.returned = some i ∧
        bytes_at ss1.st.buffer (i * size) (r :: rs).length =
          (r :: rs).map (fun x => x.inbuf 0) ∧
        ss1.st.buffer (i * size) = r.inbuf 0 ∧ ss1.st.buffer (i * size) ≠ 0 ∧
        ∃ ss2, read_command size history_size ss1.st.buffer i [] = some ss2 ∧
          ss2.st.on_loop = true ∧ ss2.st.pos = 0 ∧ ss2.st.len = 0 ∧
          ∀ j, 0 ≤ j → j < size → ss2.st.buffer (i * size + j) = 0) := by
  constructor
  · intro cr hcr
    rw [read_command_eq size history_size buffer i _ hi0 hi1 hs,
      loop_cons size history_size cr [] _ _ rfl
        (step_commit size history_size (init size buffer i) cr hcr), loop]
    refine ⟨_, rfl, rfl, fun j hj0 hj1 => init_clear size buffer i j hj0 hj1, fun a ha => ?_⟩
    show memset0 buffer (i * size) size a = buffer a
    unfold memset0
    rw [if_neg ha]
  · intro r rs cr hn hr hcr
    obtain ⟨ss1, h1, h2, h3, _⟩ := typed_session size history_size buffer i hi0 hi1 (r :: rs) cr
      hn (fun x hx => (hr x hx).1) hcr
    have hfirst : ss1.st.buffer (i * size) = r.inbuf 0 := by
      have hb := bytes_at_append ss1.st.buffer (i * size) 1 rs.length (by omega) (by omega)
      have hl : ((r :: rs).length : Int) = 1 + (rs.length : Int) := by
        simp; omega
      rw [hl, hb, bytes_at_one] at h3
      simp only [List.map_cons, List.singleton_append, List.cons.injEq] at h3
      exact h3.1
    refine ⟨ss1, h1, h2, h3, hfirst, ?_, ?_⟩
    · rw [hfirst]
      exact (hr r (List.mem_cons_self _ _)).2
    · rw [read_command_eq size history_size ss1.st.buffer i _ hi0 hi1 hs, loop]
      exact ⟨_, rfl, rfl, rfl, rfl, fun j hj0 hj1 => init_clear size ss1.st.buffer i j hj0 hj1⟩

/-- C15 on three slots of 16 bytes with prior content: Enter alone at index 1, and
"ab" Enter at index 1 followed by a new session at index 1. -/
theorem start_slot_is_cleared_witness :
    (∃ ss, read_command 16 3 (fun _ => 7) 1 [key 13] = some ss ∧
      ss.returned = some 1 ∧
      (∀ j, 0 ≤ j → j < 16 → ss.st.buffer (1 * 16 + j) = 0) ∧
      (∀ a, ¬ (1 * 16 ≤ a ∧ a < 1 * 16 + 16) → ss.st.buffer a = (fun _ => 7) a)) ∧
    (∃ ss1, read_command 16 3 (fun _ => 7) 1 (key 97 :: [key 98] ++ [key 13]) = some ss1 ∧
      ss1.returned = some 1 ∧
      bytes_at ss1.st.buffer (1 * 16) (key 97 :: [key 98]).length =
        (key 97 :: [key 98]).map (fun x => x.inbuf 0) ∧
      ss1.st.buffer (1 * 16) = (key 97).inbuf 0 ∧ ss1.st.buffer (1 * 16) ≠ 0 ∧
      ∃ ss2, read_command 16 3 ss1.st.buffer 1 [] = some ss2 ∧
        ss2.st.on_loop = true ∧ ss2.st.pos = 0 ∧ ss2.st.len = 0 ∧
        ∀ j, 0 ≤ j → j < 16 → ss2.st.buffer (1 * 16 + j) = 0) :=
  ⟨(start_slot_is_cleared 16 3 (fun _ => 7) 1 (by decide) (by decide) (by decide)).1
      (key 13) (by simp [Read.commit, key]),
   (start_slot_is_cleared 16 3 (fun _ => 7) 1 (by decide) (by decide) (by decide)).2
      (key 97) [key 98] (key 13) (by decide) (by simp [Read.printable, key])
      (by simp [Read.commit, key])⟩

end Script
